import Mathlib

/-!
Verification of the MuseTalk gatekeeper (`src/nodes/MuseTalkNode.py`).

The program is a FastAPI/asyncio service: an admission endpoint
(`execute_workflow`) assigns a fresh job handle and spawns `process_job`
as a background task; `process_job` acquires the global `processing_lock`
(an `asyncio.Lock`, granting waiters in FIFO order), runs
`run_musetalk_inference`, builds the final result payload (success or
error), and — after the lock has been released by leaving the
`async with` block — delivers the payload through
`ConnectionManager.send_result` over a WebSocket registered for the
job's handle.

The embedding has two layers:

* a pure layer for the data-flow of `run_musetalk_inference` and the
  result computation of `process_job`, with the Gradio backend and the
  filesystem abstracted by an oracle (`BackendOracle`), and for the
  `ConnectionManager` operations over an association list standing for
  the Python dict `active_connections`;
* a small-step scheduler layer (`Step` / `Reachable`) for the
  asyncio event loop: each atomic scheduling slice of a job's task is a
  step, the lock is a holder plus FIFO wait queue (the documented
  fairness of `asyncio.Lock`), and a logical clock timestamps the
  events (reaching the gate, backend start/end, delivery) the temporal
  claims speak about.

Job handles: the source issues `str(uuid.uuid4())`; handle generation is
modelled as a fresh-identifier supply (consecutive naturals), which is
the standard shallow model of uuid4's freshness. Exceptions are modelled
as `Except String`, the string being Python's `str(e)`.
-/

/-- The result payload built by `process_job` (lines 128-139): either the
success dict `format=filePath, data, filename` or the error dict
`format=error, error`. -/
inductive JobResult where
  | filePath (data : String) (filename : String)
  | error (err : String)

/-- Rendering of a `JobResult` to the JSON key/value pairs the source
sends, for stating claims about the literal payload shape. -/
def resultPairs : JobResult → List (String × String)
  | .filePath d f => [("format", "filePath"), ("data", d), ("filename", f)]
  | .error e => [("format", "error"), ("error", e)]

/-- Characters of the path after the last slash (accumulator resets at
each slash). -/
def basenameChars : List Char → List Char → List Char
  | [], acc => acc
  | c :: rest, acc =>
    if c = '/' then basenameChars rest [] else basenameChars rest (acc ++ [c])

/-- `os.path.basename`: the part of the path after the last slash. -/
def basename (p : String) : String :=
  String.mk (basenameChars p.toList [])

/-- The caller-supplied parameter bundle `job_params` (a JSON object):
a partial map from field names to values. Numeric tuning values are
carried as opaque strings — the gatekeeper only passes them through. -/
structure JobParams where
  fields : List (String × String)

/-- Dict lookup on the parameter bundle. -/
def JobParams.get? (jp : JobParams) (k : String) : Option String :=
  go jp.fields
where
  go : List (String × String) → Option String
    | [] => none
    | (k2, v) :: rest => if k2 = k then some v else go rest

/-- `job_params[k]` — raises `KeyError` when the field is absent.
(Python renders `str(KeyError(k))` with the key quoted; the model uses
the plain text `KeyError: k`.) -/
def getItem (jp : JobParams) (k : String) : Except String String :=
  match jp.get? k with
  | some v => Except.ok v
  | none => Except.error ("KeyError: " ++ k)

/-- Oracle for the external world consumed by `run_musetalk_inference`:
the Gradio call `client.predict(...)` (line 56) either raises (modelled
by `Except.error` with the message of `str(e)`) or returns a response
whose first element's `.get('video')` field is `predict`'s payload
(`none` models a missing key); `renameOk` tells whether `os.rename`
succeeds, `renameErr` being the raised message otherwise. -/
structure BackendOracle where
  predict : Except String (Option String)
  renameOk : Bool
  renameErr : String

/-- A performed filesystem operation (the artifact relocation). -/
inductive FsOp where
  | rename (src : String) (dst : String)

/-- The keyword arguments of `client.predict`, in the order Python
evaluates (and hence dereferences) them at line 56-64. -/
def predictArgKeys : List String :=
  ["audio_path", "video_path", "bbox_shift", "extra_margin",
   "parsing_mode", "left_cheek_width", "right_cheek_width"]

/-- Dereference a list of required fields in order, raising the first
`KeyError`. -/
def requireKeys (jp : JobParams) : List String → Except String Unit
  | [] => Except.ok ()
  | k :: rest =>
    match getItem jp k with
    | Except.error e => Except.error e
    | Except.ok _ => requireKeys jp rest

/-- `run_musetalk_inference` (lines 48-86): dereference the predict
arguments, call the backend, extract `result[0].get('video')`, raise
`ValueError` when it is falsy (`None` or the empty string), then move
the temporary file to `job_params["output_file_path"]` and return that
final path. The `try/except` inside the source function only logs and
re-raises, so it is the identity on the exception. Returns the outcome
together with the list of performed filesystem operations. -/
def run_musetalk_inference (jp : JobParams) (o : BackendOracle) :
    Except String String × List FsOp :=
  match requireKeys jp predictArgKeys with
  | Except.error e => (Except.error e, [])
  | Except.ok _ =>
    match o.predict with
    | Except.error e => (Except.error e, [])
    | Except.ok none =>
      (Except.error "Inference did not return a video file path.", [])
    | Except.ok (some temp) =>
      if temp = "" then
        (Except.error "Inference did not return a video file path.", [])
      else
        match getItem jp "output_file_path" with
        | Except.error e => (Except.error e, [])
        | Except.ok finalPath =>
          if o.renameOk then (Except.ok finalPath, [FsOp.rename temp finalPath])
          else (Except.error o.renameErr, [])

/-- The body of `process_job`'s `try` block up to the point the result
dict is built (lines 121-132): on success of the inference, the success
payload with the final path and its basename. -/
def process_job_try (jp : JobParams) (o : BackendOracle) : Except String JobResult :=
  match (run_musetalk_inference jp o).1 with
  | Except.ok outputPath => Except.ok (JobResult.filePath outputPath (basename outputPath))
  | Except.error e => Except.error e

/-- The `final_result` that `process_job` hands to `send_result`
(lines 120-143): the `except Exception` branch converts any raised
exception into the error payload with `str(e)`. -/
def process_job_result (jp : JobParams) (o : BackendOracle) : JobResult :=
  match process_job_try jp o with
  | Except.ok r => r
  | Except.error e => JobResult.error e

/-- A WebSocket channel: an identity and whether `send_json` on it
raises (the channel is closed or errored). -/
structure Chan where
  cid : Nat
  sendFails : Bool

namespace ConnectionManager

/-- Lookup in `active_connections` (the Python dict, as an association
list keyed by job handle). -/
def findConn : List (Nat × Chan) → Nat → Option Chan
  | [], _ => none
  | (k, w) :: rest, h => if k = h then some w else findConn rest h

/-- Remove a handle's binding (Python `del`). -/
def eraseConn : List (Nat × Chan) → Nat → List (Nat × Chan)
  | [], _ => []
  | (k, w) :: rest, h =>
    if k = h then eraseConn rest h else (k, w) :: eraseConn rest h

/-- `ConnectionManager.connect` (lines 26-29): dict assignment
`active_connections[job_id] = websocket` — replaces any earlier channel
registered under the same handle (last-writer-wins). -/
def connect (conns : List (Nat × Chan)) (jobId : Nat) (ws : Chan) :
    List (Nat × Chan) :=
  (jobId, ws) :: eraseConn conns jobId

/-- `ConnectionManager.disconnect` (lines 31-34): keyed only by
`job_id` — deletes whatever channel is currently registered under the
handle, if any. -/
def disconnect (conns : List (Nat × Chan)) (jobId : Nat) :
    List (Nat × Chan) :=
  eraseConn conns jobId

/-- `websocket.send_json(data)`: raises iff the channel is closed or
errored; otherwise the message `(receiver, payload)` is delivered. -/
def send_json (ws : Chan) (d : JobResult) : Except String (Nat × Chan × JobResult) :=
  if ws.sendFails then Except.error "WebSocket send failed"
  else Except.ok (ws.cid, ws, d)

/-- `ConnectionManager.send_result` (lines 36-43): if no channel is
registered for the handle, do nothing; otherwise try `send_json` and
swallow (log) any exception. Returns the list of messages actually
received by channels; the `Except` layer shows whether anything
propagates to the caller. -/
def send_result (conns : List (Nat × Chan)) (jobId : Nat) (d : JobResult) :
    Except String (List (Nat × Chan × JobResult)) :=
  match findConn conns jobId with
  | none => Except.ok []
  | some ws =>
    match send_json ws d with
    | Except.ok m => Except.ok [m]
    | Except.error _ => Except.ok []

end ConnectionManager

/-! ## The scheduler layer

One `asyncio` event loop; each `Step` is one atomic scheduling slice of
some task (no preemption inside a slice; every slice boundary in the
source is an `await`). A job's background task (`process_job`) moves
through the phases below; the `processing_lock` is the `holder` plus the
FIFO `queue` of waiters. A logical `clock`, incremented at every step,
timestamps the events the temporal claims are about. -/

/-- Phases of a job's background task:
`ready` — task created by `asyncio.create_task`, not yet scheduled;
`waiting` — suspended inside `processing_lock.acquire()` in the FIFO
wait queue; `granted` — woken as the lock's next owner, not yet running
the backend call; `running` — backend invocation in flight under the
lock; `delivering` — lock released, `final_result` built, `send_result`
pending; `done` — result delivery attempted, task finished. -/
inductive Phase where
  | ready
  | waiting
  | granted
  | running
  | delivering
  | done

/-- Per-task state: phase, the job's parameter bundle and backend
oracle, and the logical times at which the task reached the gate,
started and finished its backend call, and attempted delivery. -/
structure TaskState where
  phase : Phase
  params : JobParams
  oracle : BackendOracle
  reachAt : Option Nat
  startAt : Option Nat
  endAt : Option Nat
  deliverAt : Option Nat

/-- Whole-system state: the task pool (keyed by job handle), the list
of issued handles, the fresh-handle supply, the lock (holder + FIFO
queue), the logical clock, `manager.active_connections`, and the log of
delivery attempts `(handle, payload, received?)`. -/
structure Sys where
  task : Nat → Option TaskState
  issued : List Nat
  nextId : Nat
  holder : Option Nat
  queue : List Nat
  clock : Nat
  conns : List (Nat × Chan)
  delivered : List (Nat × JobResult × Bool)

/-- The empty initial state of the process. -/
def initSys : Sys :=
  { task := fun _ => none, issued := [], nextId := 0, holder := none,
    queue := [], clock := 0, conns := [], delivered := [] }

/-- Update one task's state in the pool. -/
def setTask (f : Nat → Option TaskState) (t : Nat) (ts : TaskState) :
    Nat → Option TaskState :=
  fun n => if n = t then some ts else f n

/-- Effect of the admission endpoint `execute_workflow` (lines 99-113):
issue the next fresh handle and create the job's background task in
phase `ready`. The oracle fixed here is the backend's behaviour for
this job. -/
def submitEff (s : Sys) (jp : JobParams) (o : BackendOracle) : Sys :=
  { s with
    task := setTask s.task s.nextId
      { phase := Phase.ready, params := jp, oracle := o,
        reachAt := none, startAt := none, endAt := none, deliverAt := none },
    issued := s.issued ++ [s.nextId],
    nextId := s.nextId + 1,
    clock := s.clock + 1 }

/-- `execute_workflow` itself: the synchronous response
`{status: "success", job_id: handle}` paired with the state after
spawning the background task. -/
structure AdmissionResponse where
  status : String
  job_id : Nat

/-- The admission endpoint: builds the response and spawns the job. -/
def execute_workflow (s : Sys) (jp : JobParams) (o : BackendOracle) :
    AdmissionResponse × Sys :=
  ({ status := "success", job_id := s.nextId }, submitEff s jp o)

/-- Effect of a ready task reaching `async with processing_lock` while
the lock is free: it acquires immediately and becomes the holder. -/
def acquireEff (s : Sys) (t : Nat) (ts : TaskState) : Sys :=
  { s with
    task := setTask s.task t
      { ts with phase := Phase.granted, reachAt := some s.clock },
    holder := some t,
    clock := s.clock + 1 }

/-- Effect of a ready task reaching the gate while the lock is held:
it suspends at the tail of the FIFO wait queue. -/
def enqueueEff (s : Sys) (t : Nat) (ts : TaskState) : Sys :=
  { s with
    task := setTask s.task t
      { ts with phase := Phase.waiting, reachAt := some s.clock },
    queue := s.queue ++ [t],
    clock := s.clock + 1 }

/-- Effect of the lock's owner starting its backend invocation
(line 125, `await run_musetalk_inference`). -/
def startEff (s : Sys) (t : Nat) (ts : TaskState) : Sys :=
  { s with
    task := setTask s.task t
      { ts with phase := Phase.running, startAt := some s.clock },
    clock := s.clock + 1 }

/-- Effect of the backend invocation completing (successfully or by
raising) with no waiter queued: leaving the `async with` block releases
the lock, which becomes free; the task proceeds to delivery with its
`final_result`. -/
def finishNoneEff (s : Sys) (t : Nat) (ts : TaskState) : Sys :=
  { s with
    task := setTask s.task t
      { ts with phase := Phase.delivering, endAt := some s.clock },
    holder := none,
    clock := s.clock + 1 }

/-- Effect of the backend invocation completing with waiters queued:
the release wakes the first waiter, which becomes the next owner
(`granted`); the finishing task proceeds to delivery. The release
happens on every exit path of the `async with` block, exceptional or
not. -/
def finishNextEff (s : Sys) (t : Nat) (ts : TaskState) (b : Nat)
    (rest : List Nat) (tsb : TaskState) : Sys :=
  { s with
    task := setTask
      (setTask s.task t { ts with phase := Phase.delivering, endAt := some s.clock })
      b { tsb with phase := Phase.granted },
    holder := some b,
    queue := rest,
    clock := s.clock + 1 }

/-- Whether a `send_result` call got a message through to a live
channel. -/
def sendDelivered : Except String (List (Nat × Chan × JobResult)) → Bool
  | Except.ok (_ :: _) => true
  | _ => false

/-- Effect of the `finally` block (lines 140-143): attempt delivery of
the job's one result through the connection manager and log the
attempt. -/
def deliverEff (s : Sys) (t : Nat) (ts : TaskState) : Sys :=
  { s with
    task := setTask s.task t
      { ts with phase := Phase.done, deliverAt := some s.clock },
    delivered := s.delivered ++
      [(t, process_job_result ts.params ts.oracle,
        sendDelivered (ConnectionManager.send_result s.conns t
          (process_job_result ts.params ts.oracle)))],
    clock := s.clock + 1 }

/-- Effect of `websocket_endpoint` accepting a client for a handle
(lines 146-149): register the channel, last-writer-wins. -/
def connectEff (s : Sys) (jobId : Nat) (ws : Chan) : Sys :=
  { s with
    conns := ConnectionManager.connect s.conns jobId ws,
    clock := s.clock + 1 }

/-- Effect of a peer disconnect (lines 154-155): the handler calls
`manager.disconnect(job_id)`, keyed by handle only. -/
def disconnectEff (s : Sys) (jobId : Nat) : Sys :=
  { s with
    conns := ConnectionManager.disconnect s.conns jobId,
    clock := s.clock + 1 }

/-- One atomic scheduling slice of the event loop. -/
inductive Step : Sys → Sys → Prop where
  | submit (s : Sys) (jp : JobParams) (o : BackendOracle) :
      Step s (submitEff s jp o)
  | acquireNow (s : Sys) (t : Nat) (ts : TaskState)
      (h1 : s.task t = some ts) (h2 : ts.phase = Phase.ready)
      (h3 : s.holder = none) :
      Step s (acquireEff s t ts)
  | enqueue (s : Sys) (t : Nat) (ts : TaskState) (h : Nat)
      (h1 : s.task t = some ts) (h2 : ts.phase = Phase.ready)
      (h3 : s.holder = some h) :
      Step s (enqueueEff s t ts)
  | startBackend (s : Sys) (t : Nat) (ts : TaskState)
      (h1 : s.task t = some ts) (h2 : ts.phase = Phase.granted) :
      Step s (startEff s t ts)
  | finishNone (s : Sys) (t : Nat) (ts : TaskState)
      (h1 : s.task t = some ts) (h2 : ts.phase = Phase.running)
      (hq : s.queue = []) :
      Step s (finishNoneEff s t ts)
  | finishNext (s : Sys) (t : Nat) (ts : TaskState) (b : Nat)
      (rest : List Nat) (tsb : TaskState)
      (h1 : s.task t = some ts) (h2 : ts.phase = Phase.running)
      (hq : s.queue = b :: rest) (hb : s.task b = some tsb) :
      Step s (finishNextEff s t ts b rest tsb)
  | deliver (s : Sys) (t : Nat) (ts : TaskState)
      (h1 : s.task t = some ts) (h2 : ts.phase = Phase.delivering) :
      Step s (deliverEff s t ts)
  | wsConnect (s : Sys) (jobId : Nat) (ws : Chan) :
      Step s (connectEff s jobId ws)
  | wsDisconnect (s : Sys) (jobId : Nat) :
      Step s (disconnectEff s jobId)

/-- States the process can reach from startup. -/
inductive Reachable : Sys → Prop where
  | init : Reachable initSys
  | step {s s2 : Sys} : Reachable s → Step s s2 → Reachable s2

/-! ## The inductive invariant -/

/-- `n` is one of the task's recorded event times. -/
def tsStamps (ts : TaskState) (n : Nat) : Prop :=
  ts.reachAt = some n ∨ ts.startAt = some n ∨ ts.endAt = some n ∨
    ts.deliverAt = some n

/-- Coherence of a task's timestamps with its phase: each event time is
recorded exactly when the phase says the event has happened, and the
events of one task happen in order. -/
def PhaseTs (ts : TaskState) : Prop :=
  match ts.phase with
  | Phase.ready =>
      ts.reachAt = none ∧ ts.startAt = none ∧ ts.endAt = none ∧ ts.deliverAt = none
  | Phase.waiting =>
      (∃ r, ts.reachAt = some r) ∧ ts.startAt = none ∧ ts.endAt = none ∧
        ts.deliverAt = none
  | Phase.granted =>
      (∃ r, ts.reachAt = some r) ∧ ts.startAt = none ∧ ts.endAt = none ∧
        ts.deliverAt = none
  | Phase.running =>
      (∃ r k, ts.reachAt = some r ∧ ts.startAt = some k ∧ r < k) ∧
        ts.endAt = none ∧ ts.deliverAt = none
  | Phase.delivering =>
      (∃ r k n, ts.reachAt = some r ∧ ts.startAt = some k ∧ ts.endAt = some n ∧
        r < k ∧ k < n) ∧ ts.deliverAt = none
  | Phase.done =>
      ∃ r k n d, ts.reachAt = some r ∧ ts.startAt = some k ∧
        ts.endAt = some n ∧ ts.deliverAt = some d ∧ r < k ∧ k < n ∧ n < d

/-- Task `a` reached the gate strictly before task `b` (both times
recorded in the pool `f`). -/
def rlt (f : Nat → Option TaskState) (a b : Nat) : Prop :=
  ∃ tsa tsb ra rb, f a = some tsa ∧ f b = some tsb ∧
    tsa.reachAt = some ra ∧ tsb.reachAt = some rb ∧ ra < rb

/-- The inductive invariant of reachable states. -/
structure SysInv (s : Sys) : Prop where
  clock_lt : ∀ t ts n, s.task t = some ts → tsStamps ts n → n < s.clock
  task_lt : ∀ t ts, s.task t = some ts → t < s.nextId
  issued_lt : ∀ i ∈ s.issued, i < s.nextId
  issued_nodup : s.issued.Nodup
  holder_none : s.holder = none → s.queue = []
  holder_some : ∀ h, s.holder = some h → ∃ ts, s.task h = some ts ∧
    (ts.phase = Phase.granted ∨ ts.phase = Phase.running)
  holder_unique : ∀ t ts, s.task t = some ts →
    (ts.phase = Phase.granted ∨ ts.phase = Phase.running) → s.holder = some t
  queue_waiting : ∀ t ∈ s.queue, ∃ ts, s.task t = some ts ∧
    ts.phase = Phase.waiting
  waiting_queue : ∀ t ts, s.task t = some ts → ts.phase = Phase.waiting →
    t ∈ s.queue
  queue_sorted : s.queue.Pairwise (rlt s.task)
  phase_ts : ∀ t ts, s.task t = some ts → PhaseTs ts
  holder_min : ∀ h tsh rh b, s.holder = some h → s.task h = some tsh →
    tsh.reachAt = some rh → b ∈ s.queue → ∃ tsb rb, s.task b = some tsb ∧
    tsb.reachAt = some rb ∧ rh < rb
  holder_prio_lt : ∀ h tsh rh a tsa ra, s.holder = some h →
    s.task h = some tsh → tsh.reachAt = some rh → s.task a = some tsa →
    tsa.reachAt = some ra → ra < rh → ∃ n, tsa.endAt = some n
  holder_prio_gt : ∀ h tsh rh a tsa ra, s.holder = some h →
    s.task h = some tsh → tsh.reachAt = some rh → s.task a = some tsa →
    tsa.reachAt = some ra → rh < ra → tsa.startAt = none
  fifo : ∀ a b tsa tsb ra rb kb, s.task a = some tsa → s.task b = some tsb →
    tsa.reachAt = some ra → tsb.reachAt = some rb → ra < rb →
    tsb.startAt = some kb → ∃ na, tsa.endAt = some na ∧ na < kb
  delivered_nodup : (s.delivered.map (fun e => e.1)).Nodup
  delivered_done : ∀ e ∈ s.delivered, ∃ ts, s.task e.1 = some ts ∧
    ts.phase = Phase.done ∧ e.2.1 = process_job_result ts.params ts.oracle
  done_delivered : ∀ t ts, s.task t = some ts → ts.phase = Phase.done →
    t ∈ s.delivered.map (fun e => e.1)

/-! ## Concrete executions used by the witnesses -/

/-- A fully populated parameter bundle. -/
def jpFull : JobParams :=
  { fields :=
      [("audio_path", "in/a.wav"), ("video_path", "in/v.mp4"),
       ("bbox_shift", "0"), ("extra_margin", "10"),
       ("parsing_mode", "jaw"), ("left_cheek_width", "90"),
       ("right_cheek_width", "90"), ("output_file_path", "out/final.mp4")] }

/-- A bundle missing every required field. -/
def jpEmpty : JobParams := { fields := [] }

/-- A backend run that succeeds and returns a temporary artifact. -/
def okOracle : BackendOracle :=
  { predict := Except.ok (some "tmp/gradio.mp4"), renameOk := true,
    renameErr := "rename failed" }

/-- A backend run that raises `ValueError(boom)`. -/
def boomOracle : BackendOracle :=
  { predict := Except.error "boom", renameOk := true,
    renameErr := "rename failed" }

/-- The task state of a freshly admitted job. -/
def freshTask (jp : JobParams) (o : BackendOracle) : TaskState :=
  { phase := Phase.ready, params := jp, oracle := o,
    reachAt := none, startAt := none, endAt := none, deliverAt := none }

/-- Demo run: two jobs admitted back to back. -/
def demo1 : Sys := submitEff initSys jpFull okOracle

/-- Demo run, step 2: second admission. -/
def demo2 : Sys := submitEff demo1 jpFull boomOracle

/-- Demo run, step 3: job 0's task reaches the free gate and acquires. -/
def demo3 : Sys := acquireEff demo2 0 (freshTask jpFull okOracle)

/-- Demo run, step 4: job 1's task reaches the held gate and queues. -/
def demo4 : Sys := enqueueEff demo3 1 (freshTask jpFull boomOracle)

/-- Demo run, step 5: job 0 starts its backend call (clock 4). -/
def demo5 : Sys :=
  startEff demo4 0
    { freshTask jpFull okOracle with
      phase := Phase.granted
      reachAt := some 2 }

/-- Demo run, step 6: job 0's backend call completes (clock 5); the
lock is handed to job 1. -/
def demo6 : Sys :=
  finishNextEff demo5 0
    { freshTask jpFull okOracle with
      phase := Phase.running
      reachAt := some 2
      startAt := some 4 }
    1 []
    { freshTask jpFull boomOracle with
      phase := Phase.waiting
      reachAt := some 3 }

/-- Demo run, step 7: job 1 starts its backend call (clock 6). -/
def demo7 : Sys :=
  startEff demo6 1
    { freshTask jpFull boomOracle with
      phase := Phase.granted
      reachAt := some 3 }

/-- Demo run, step 8: job 0 delivers its result (clock 7). -/
def demo8 : Sys :=
  deliverEff demo7 0
    { freshTask jpFull okOracle with
      phase := Phase.delivering
      reachAt := some 2
      startAt := some 4
      endAt := some 5 }

/-- Demo run, variant of step 8: before job 0 delivers, a client opens
a live (non-failing) WebSocket for job 0's handle, registering the
channel. -/
def demo7c : Sys := connectEff demo7 0 { cid := 9, sendFails := false }

/-- Demo run, variant of step 9: job 0 delivers while the live channel
is registered, so the channel receives the success payload and the
logged attempt records reception. -/
def demo8c : Sys :=
  deliverEff demo7c 0
    { freshTask jpFull okOracle with
      phase := Phase.delivering
      reachAt := some 2
      startAt := some 4
      endAt := some 5 }

/-! ## Basic lemmas about the task pool -/

theorem setTask_self (f : Nat → Option TaskState) (t : Nat) (ts : TaskState) :
    setTask f t ts t = some ts := by
  simp [setTask]

theorem setTask_ne (f : Nat → Option TaskState) (t : Nat) (ts : TaskState)
    {n : Nat} (h : n ≠ t) : setTask f t ts n = f n := by
  simp [setTask, h]

theorem setTask_eq_some {f : Nat → Option TaskState} {t : Nat} {ts : TaskState}
    {n : Nat} {tsn : TaskState} (h : setTask f t ts n = some tsn) :
    (n = t ∧ tsn = ts) ∨ (n ≠ t ∧ f n = some tsn) := by
  by_cases hn : n = t
  · subst hn
    rw [setTask_self] at h
    exact Or.inl ⟨rfl, (Option.some_inj.mp h).symm⟩
  · right
    rw [setTask_ne _ _ _ hn] at h
    exact ⟨hn, h⟩

theorem rlt_congr {f g : Nat → Option TaskState} {a b : Nat}
    (hg : ∀ x tsx, f x = some tsx → g x = f x) (h : rlt f a b) : rlt g a b := by
  obtain ⟨tsa, tsb, ra, rb, ha, hb, hra, hrb, hlt⟩ := h
  exact ⟨tsa, tsb, ra, rb, by rw [hg a tsa ha]; exact ha,
    by rw [hg b tsb hb]; exact hb, hra, hrb, hlt⟩

theorem acquireEff_task_self (s : Sys) (t : Nat) (ts : TaskState) :
    (acquireEff s t ts).task t =
      some { ts with phase := Phase.granted, reachAt := some s.clock } :=
  setTask_self _ _ _

/-! ## The invariant is inductive -/

theorem inv_init : SysInv initSys where
  clock_lt := by intro t ts n h; simp [initSys] at h
  task_lt := by intro t ts h; simp [initSys] at h
  issued_lt := by intro i h; simp [initSys] at h
  issued_nodup := by simp [initSys]
  holder_none := by intro _; rfl
  holder_some := by intro h hh; simp [initSys] at hh
  holder_unique := by intro t ts h; simp [initSys] at h
  queue_waiting := by intro t h; simp [initSys] at h
  waiting_queue := by intro t ts h; simp [initSys] at h
  queue_sorted := by simp [initSys]
  phase_ts := by intro t ts h; simp [initSys] at h
  holder_min := by intro h tsh rh b hh; simp [initSys] at hh
  holder_prio_lt := by intro h tsh rh a tsa ra hh; simp [initSys] at hh
  holder_prio_gt := by intro h tsh rh a tsa ra hh; simp [initSys] at hh
  fifo := by intro a b tsa tsb ra rb kb ha; simp [initSys] at ha
  delivered_nodup := by simp [initSys]
  delivered_done := by intro e he; simp [initSys] at he
  done_delivered := by intro t ts h; simp [initSys] at h

theorem ready_ts {s : Sys} (hI : SysInv s) {t : Nat} {ts : TaskState}
    (h : s.task t = some ts) (hp : ts.phase = Phase.ready) :
    ts.reachAt = none ∧ ts.startAt = none ∧ ts.endAt = none ∧
      ts.deliverAt = none := by
  have hco := hI.phase_ts t ts h
  unfold PhaseTs at hco
  rw [hp] at hco
  exact hco

theorem waiting_ts {s : Sys} (hI : SysInv s) {t : Nat} {ts : TaskState}
    (h : s.task t = some ts) (hp : ts.phase = Phase.waiting) :
    (∃ r, ts.reachAt = some r) ∧ ts.startAt = none ∧ ts.endAt = none ∧
      ts.deliverAt = none := by
  have hco := hI.phase_ts t ts h
  unfold PhaseTs at hco
  rw [hp] at hco
  exact hco

theorem granted_ts {s : Sys} (hI : SysInv s) {t : Nat} {ts : TaskState}
    (h : s.task t = some ts) (hp : ts.phase = Phase.granted) :
    (∃ r, ts.reachAt = some r) ∧ ts.startAt = none ∧ ts.endAt = none ∧
      ts.deliverAt = none := by
  have hco := hI.phase_ts t ts h
  unfold PhaseTs at hco
  rw [hp] at hco
  exact hco

theorem running_ts {s : Sys} (hI : SysInv s) {t : Nat} {ts : TaskState}
    (h : s.task t = some ts) (hp : ts.phase = Phase.running) :
    (∃ r k, ts.reachAt = some r ∧ ts.startAt = some k ∧ r < k) ∧
      ts.endAt = none ∧ ts.deliverAt = none := by
  have hco := hI.phase_ts t ts h
  unfold PhaseTs at hco
  rw [hp] at hco
  exact hco

theorem delivering_ts {s : Sys} (hI : SysInv s) {t : Nat} {ts : TaskState}
    (h : s.task t = some ts) (hp : ts.phase = Phase.delivering) :
    (∃ r k n, ts.reachAt = some r ∧ ts.startAt = some k ∧ ts.endAt = some n ∧
      r < k ∧ k < n) ∧ ts.deliverAt = none := by
  have hco := hI.phase_ts t ts h
  unfold PhaseTs at hco
  rw [hp] at hco
  exact hco

theorem done_ts {s : Sys} (hI : SysInv s) {t : Nat} {ts : TaskState}
    (h : s.task t = some ts) (hp : ts.phase = Phase.done) :
    ∃ r k n d, ts.reachAt = some r ∧ ts.startAt = some k ∧
      ts.endAt = some n ∧ ts.deliverAt = some d ∧ r < k ∧ k < n ∧ n < d := by
  have hco := hI.phase_ts t ts h
  unfold PhaseTs at hco
  rw [hp] at hco
  exact hco

theorem inv_submit {s : Sys} (jp : JobParams) (o : BackendOracle)
    (hI : SysInv s) : SysInv (submitEff s jp o) := by
  have hfresh : s.task s.nextId = none := by
    cases h : s.task s.nextId with
    | none => rfl
    | some ts => exact absurd (hI.task_lt _ _ h) (lt_irrefl _)
  have hne : ∀ {n : Nat} {tsn : TaskState}, s.task n = some tsn → n ≠ s.nextId := by
    intro n tsn h hEq
    rw [hEq, hfresh] at h
    cases h
  have htask : ∀ {n : Nat} {tsn : TaskState}, s.task n = some tsn →
      (submitEff s jp o).task n = some tsn := by
    intro n tsn h
    simpa [submitEff, setTask_ne _ _ _ (hne h)] using h
  constructor
  · intro t ts n h hst
    rcases setTask_eq_some h with ⟨rfl, rfl⟩ | ⟨_, hold⟩
    · rcases hst with h2 | h2 | h2 | h2 <;> simp at h2
    · exact Nat.lt_succ_of_lt (hI.clock_lt _ _ _ hold hst)
  · intro t ts h
    rcases setTask_eq_some h with ⟨rfl, rfl⟩ | ⟨_, hold⟩
    · exact Nat.lt_succ_self _
    · exact Nat.lt_succ_of_lt (hI.task_lt _ _ hold)
  · intro i h
    simp only [submitEff, List.mem_append, List.mem_singleton] at h
    rcases h with h | rfl
    · exact Nat.lt_succ_of_lt (hI.issued_lt _ h)
    · exact Nat.lt_succ_self _
  · simp only [submitEff]
    refine List.Nodup.append hI.issued_nodup (List.nodup_singleton _) ?_
    intro a ha hb
    rw [List.mem_singleton] at hb
    subst hb
    exact absurd (hI.issued_lt _ ha) (lt_irrefl _)
  · exact hI.holder_none
  · intro h hh
    obtain ⟨ts, hts, hph⟩ := hI.holder_some h hh
    exact ⟨ts, htask hts, hph⟩
  · intro t ts h hph
    rcases setTask_eq_some h with ⟨rfl, rfl⟩ | ⟨_, hold⟩
    · rcases hph with h2 | h2 <;> simp at h2
    · exact hI.holder_unique _ _ hold hph
  · intro t ht
    obtain ⟨ts, hts, hph⟩ := hI.queue_waiting t ht
    exact ⟨ts, htask hts, hph⟩
  · intro t ts h hph
    rcases setTask_eq_some h with ⟨rfl, rfl⟩ | ⟨_, hold⟩
    · simp at hph
    · exact hI.waiting_queue _ _ hold hph
  · exact hI.queue_sorted.imp_of_mem (fun {a b} _ _ hr =>
      rlt_congr (fun x tsx hx => setTask_ne _ _ _ (hne hx)) hr)
  · intro t ts h
    rcases setTask_eq_some h with ⟨rfl, rfl⟩ | ⟨_, hold⟩
    · exact ⟨rfl, rfl, rfl, rfl⟩
    · exact hI.phase_ts _ _ hold
  · intro h tsh rh b hh hts hr hb
    have holdh : s.task h = some tsh := by
      rcases setTask_eq_some hts with ⟨rfl, rfl⟩ | ⟨_, hold⟩
      · simp at hr
      · exact hold
    obtain ⟨tsb, rb2, htsb, hrb, hlt⟩ := hI.holder_min h tsh rh b hh holdh hr hb
    exact ⟨tsb, rb2, htask htsb, hrb, hlt⟩
  · intro h tsh rh a tsa ra hh hts hr hta hra hlt
    rcases setTask_eq_some hts with ⟨rfl, rfl⟩ | ⟨_, holdh⟩
    · simp at hr
    · rcases setTask_eq_some hta with ⟨rfl, rfl⟩ | ⟨_, holda⟩
      · simp at hra
      · exact hI.holder_prio_lt h _ rh a _ ra hh holdh hr holda hra hlt
  · intro h tsh rh a tsa ra hh hts hr hta hra hlt
    rcases setTask_eq_some hts with ⟨rfl, rfl⟩ | ⟨_, holdh⟩
    · simp at hr
    · rcases setTask_eq_some hta with ⟨rfl, rfl⟩ | ⟨_, holda⟩
      · simp at hra
      · exact hI.holder_prio_gt h _ rh a _ ra hh holdh hr holda hra hlt
  · intro a b tsa tsb ra rb kb ha hb hra hrb hlt hkb
    rcases setTask_eq_some ha with ⟨rfl, rfl⟩ | ⟨_, holda⟩
    · simp at hra
    · rcases setTask_eq_some hb with ⟨rfl, rfl⟩ | ⟨_, holdb⟩
      · simp at hrb
      · exact hI.fifo a b _ _ ra rb kb holda holdb hra hrb hlt hkb
  · exact hI.delivered_nodup
  · intro e he
    obtain ⟨ts, hts, hph, hres⟩ := hI.delivered_done e he
    exact ⟨ts, htask hts, hph, hres⟩
  · intro t ts h hph
    rcases setTask_eq_some h with ⟨rfl, rfl⟩ | ⟨_, hold⟩
    · simp at hph
    · exact hI.done_delivered _ _ hold hph

theorem inv_acquire {s : Sys} {t : Nat} {ts : TaskState}
    (h1 : s.task t = some ts) (h2 : ts.phase = Phase.ready)
    (h3 : s.holder = none) (hI : SysInv s) : SysInv (acquireEff s t ts) := by
  obtain ⟨hr0, hs0, he0, hd0⟩ := ready_ts hI h1 h2
  have hqe : s.queue = [] := hI.holder_none h3
  constructor
  · intro n tsn m h hst
    rcases setTask_eq_some h with ⟨rfl, rfl⟩ | ⟨hne2, hold⟩
    · have hst2 : some s.clock = some m ∨ ts.startAt = some m ∨
          ts.endAt = some m ∨ ts.deliverAt = some m := hst
      rcases hst2 with hx | hx | hx | hx
      · have hm : s.clock = m := Option.some_inj.mp hx
        show m < s.clock + 1
        omega
      · rw [hs0] at hx; cases hx
      · rw [he0] at hx; cases hx
      · rw [hd0] at hx; cases hx
    · exact Nat.lt_succ_of_lt (hI.clock_lt _ _ _ hold hst)
  · intro n tsn h
    rcases setTask_eq_some h with ⟨rfl, rfl⟩ | ⟨_, hold⟩
    · exact hI.task_lt _ _ h1
    · exact hI.task_lt _ _ hold
  · exact hI.issued_lt
  · exact hI.issued_nodup
  · intro hcontra
    cases hcontra
  · intro h hh
    cases Option.some_inj.mp hh
    exact ⟨_, setTask_self _ _ _, Or.inl rfl⟩
  · intro n tsn h hph
    rcases setTask_eq_some h with ⟨rfl, rfl⟩ | ⟨hne2, hold⟩
    · rfl
    · have := hI.holder_unique _ _ hold hph
      rw [h3] at this
      cases this
  · intro n hn
    have hn2 : n ∈ s.queue := hn
    rw [hqe] at hn2
    cases hn2
  · intro n tsn h hph
    rcases setTask_eq_some h with ⟨rfl, rfl⟩ | ⟨hne2, hold⟩
    · cases hph
    · exact hI.waiting_queue _ _ hold hph
  · show (s.queue).Pairwise (rlt (acquireEff s t ts).task)
    rw [hqe]
    exact List.Pairwise.nil
  · intro n tsn h
    rcases setTask_eq_some h with ⟨rfl, rfl⟩ | ⟨_, hold⟩
    · exact ⟨⟨s.clock, rfl⟩, hs0, he0, hd0⟩
    · exact hI.phase_ts _ _ hold
  · intro h tsh rh b hh htsh hr hb
    have hb2 : b ∈ s.queue := hb
    rw [hqe] at hb2
    cases hb2
  · intro h tsh rh a tsa ra hh htsh hr hta hra hlt
    cases Option.some_inj.mp hh
    rw [acquireEff_task_self] at htsh
    cases Option.some_inj.mp htsh
    have hrh : s.clock = rh := Option.some_inj.mp hr
    rcases setTask_eq_some hta with ⟨rfl, rfl⟩ | ⟨hne2, holda⟩
    · have hra2 : s.clock = ra := Option.some_inj.mp hra
      exact absurd hlt (by omega)
    · cases hpa : tsa.phase
      case ready =>
        obtain ⟨hra0, _, _, _⟩ := ready_ts hI holda hpa
        rw [hra0] at hra
        cases hra
      case waiting =>
        have := hI.waiting_queue _ _ holda hpa
        rw [hqe] at this
        cases this
      case granted =>
        have := hI.holder_unique _ _ holda (Or.inl hpa)
        rw [h3] at this
        cases this
      case running =>
        have := hI.holder_unique _ _ holda (Or.inr hpa)
        rw [h3] at this
        cases this
      case delivering =>
        obtain ⟨⟨r2, k2, n2, _, _, hend, _, _⟩, _⟩ := delivering_ts hI holda hpa
        exact ⟨n2, hend⟩
      case done =>
        obtain ⟨r2, k2, n2, d2, _, _, hend, _, _, _, _⟩ := done_ts hI holda hpa
        exact ⟨n2, hend⟩
  · intro h tsh rh a tsa ra hh htsh hr hta hra hlt
    cases Option.some_inj.mp hh
    rw [acquireEff_task_self] at htsh
    cases Option.some_inj.mp htsh
    have hrh : s.clock = rh := Option.some_inj.mp hr
    rcases setTask_eq_some hta with ⟨rfl, rfl⟩ | ⟨hne2, holda⟩
    · have hra2 : s.clock = ra := Option.some_inj.mp hra
      exact absurd hlt (by omega)
    · have hclk := hI.clock_lt _ _ _ holda (Or.inl hra)
      exact absurd hlt (by omega)
  · intro a b tsa tsb ra rb kb ha hb hra hrb hlt hkb
    rcases setTask_eq_some hb with ⟨rfl, rfl⟩ | ⟨hneb, holdb⟩
    · have hkb2 : ts.startAt = some kb := hkb
      rw [hs0] at hkb2
      cases hkb2
    · rcases setTask_eq_some ha with ⟨rfl, rfl⟩ | ⟨hnea, holda⟩
      · have hclk := hI.clock_lt _ _ _ holdb (Or.inl hrb)
        have hra2 : s.clock = ra := Option.some_inj.mp hra
        exact absurd hlt (by omega)
      · exact hI.fifo a b _ _ ra rb kb holda holdb hra hrb hlt hkb
  · exact hI.delivered_nodup
  · intro e he
    obtain ⟨ts3, hts3, hph, hres⟩ := hI.delivered_done e he
    have hne2 : e.1 ≠ t := by
      intro hEq
      rw [hEq, h1] at hts3
      cases Option.some_inj.mp hts3
      rw [h2] at hph
      cases hph
    refine ⟨ts3, ?_, hph, hres⟩
    show setTask s.task t _ e.1 = some ts3
    rw [setTask_ne _ _ _ hne2]
    exact hts3
  · intro n tsn h hph
    rcases setTask_eq_some h with ⟨rfl, rfl⟩ | ⟨_, hold⟩
    · cases hph
    · exact hI.done_delivered _ _ hold hph

theorem enqueueEff_task_self (s : Sys) (t : Nat) (ts : TaskState) :
    (enqueueEff s t ts).task t =
      some { ts with phase := Phase.waiting, reachAt := some s.clock } :=
  setTask_self _ _ _

theorem inv_enqueue {s : Sys} {t : Nat} {ts : TaskState} {h0 : Nat}
    (h1 : s.task t = some ts) (h2 : ts.phase = Phase.ready)
    (h3 : s.holder = some h0) (hI : SysInv s) : SysInv (enqueueEff s t ts) := by
  obtain ⟨hr0, hs0, he0, hd0⟩ := ready_ts hI h1 h2
  obtain ⟨tsh0, htsh0, hph0⟩ := hI.holder_some h0 h3
  have htne : t ≠ h0 := by
    intro hEq
    rw [hEq, htsh0] at h1
    cases Option.some_inj.mp h1
    rcases hph0 with hx | hx <;> · rw [h2] at hx; cases hx
  have hpres : ∀ {n : Nat} {tsn : TaskState}, s.task n = some tsn → n ≠ t →
      (enqueueEff s t ts).task n = some tsn := by
    intro n tsn hn hne
    show setTask s.task t _ n = some tsn
    rw [setTask_ne _ _ _ hne]
    exact hn
  constructor
  · intro n tsn m h hst
    rcases setTask_eq_some h with ⟨rfl, rfl⟩ | ⟨hne2, hold⟩
    · have hst2 : some s.clock = some m ∨ ts.startAt = some m ∨
          ts.endAt = some m ∨ ts.deliverAt = some m := hst
      rcases hst2 with hx | hx | hx | hx
      · have hm : s.clock = m := Option.some_inj.mp hx
        show m < s.clock + 1
        omega
      · rw [hs0] at hx; cases hx
      · rw [he0] at hx; cases hx
      · rw [hd0] at hx; cases hx
    · exact Nat.lt_succ_of_lt (hI.clock_lt _ _ _ hold hst)
  · intro n tsn h
    rcases setTask_eq_some h with ⟨rfl, rfl⟩ | ⟨_, hold⟩
    · exact hI.task_lt _ _ h1
    · exact hI.task_lt _ _ hold
  · exact hI.issued_lt
  · exact hI.issued_nodup
  · intro hc
    have hc2 : s.holder = none := hc
    rw [h3] at hc2
    cases hc2
  · intro h hh
    have hh2 : s.holder = some h := hh
    rw [h3] at hh2
    cases Option.some_inj.mp hh2
    exact ⟨tsh0, hpres htsh0 (fun hEq => htne hEq.symm), hph0⟩
  · intro n tsn h hph
    rcases setTask_eq_some h with ⟨rfl, rfl⟩ | ⟨hne2, hold⟩
    · rcases hph with hx | hx <;> cases hx
    · exact hI.holder_unique _ _ hold hph
  · intro n hn
    have hn2 : n ∈ s.queue ++ [t] := hn
    rcases List.mem_append.mp hn2 with hx | hx
    · obtain ⟨tsn, htsn, hphn⟩ := hI.queue_waiting n hx
      have hne2 : n ≠ t := by
        intro hEq
        rw [hEq, h1] at htsn
        cases Option.some_inj.mp htsn
        rw [h2] at hphn
        cases hphn
      exact ⟨tsn, hpres htsn hne2, hphn⟩
    · rw [List.mem_singleton] at hx
      subst hx
      exact ⟨_, setTask_self _ _ _, rfl⟩
  · intro n tsn h hph
    rcases setTask_eq_some h with ⟨rfl, rfl⟩ | ⟨hne2, hold⟩
    · show n ∈ s.queue ++ [n]
      exact List.mem_append.mpr (Or.inr (List.mem_singleton.mpr rfl))
    · show n ∈ s.queue ++ [t]
      exact List.mem_append.mpr (Or.inl (hI.waiting_queue _ _ hold hph))
  · show (s.queue ++ [t]).Pairwise (rlt (enqueueEff s t ts).task)
    rw [List.pairwise_append]
    refine ⟨?_, List.pairwise_singleton _ _, ?_⟩
    · refine hI.queue_sorted.imp_of_mem (fun {a b} hma hmb hr => ?_)
      obtain ⟨tsa, tsb, ra, rb, hta, htb, hra, hrb, hlt⟩ := hr
      have hnea : a ≠ t := by
        intro hEq
        obtain ⟨tsa2, hta2, hpha⟩ := hI.queue_waiting a hma
        rw [hEq, h1] at hta2
        cases Option.some_inj.mp hta2
        rw [h2] at hpha
        cases hpha
      have hneb : b ≠ t := by
        intro hEq
        obtain ⟨tsb2, htb2, hphb⟩ := hI.queue_waiting b hmb
        rw [hEq, h1] at htb2
        cases Option.some_inj.mp htb2
        rw [h2] at hphb
        cases hphb
      exact ⟨tsa, tsb, ra, rb, hpres hta hnea, hpres htb hneb, hra, hrb, hlt⟩
    · intro a hma b hmb
      rw [List.mem_singleton] at hmb
      subst hmb
      obtain ⟨tsa, htsa, hpha⟩ := hI.queue_waiting a hma
      obtain ⟨⟨ra, hra⟩, _, _, _⟩ := waiting_ts hI htsa hpha
      have hnea : a ≠ b := by
        intro hEq
        rw [hEq, h1] at htsa
        cases Option.some_inj.mp htsa
        rw [h2] at hpha
        cases hpha
      have hclk := hI.clock_lt _ _ _ htsa (Or.inl hra)
      exact ⟨tsa, _, ra, s.clock, hpres htsa hnea, setTask_self _ _ _, hra, rfl, hclk⟩
  · intro n tsn h
    rcases setTask_eq_some h with ⟨rfl, rfl⟩ | ⟨_, hold⟩
    · exact ⟨⟨s.clock, rfl⟩, hs0, he0, hd0⟩
    · exact hI.phase_ts _ _ hold
  · intro h tsh rh b hh htsh hr hb
    have hh2 : s.holder = some h := hh
    rw [h3] at hh2
    cases Option.some_inj.mp hh2
    have hneh : h0 ≠ t := fun hEq => htne hEq.symm
    have htsh2 : s.task h0 = some tsh := by
      rcases setTask_eq_some htsh with ⟨hEq, rfl⟩ | ⟨_, hold⟩
      · exact absurd hEq hneh
      · exact hold
    have hb2 : b ∈ s.queue ++ [t] := hb
    rcases List.mem_append.mp hb2 with hx | hx
    · obtain ⟨tsb, rb, htsb, hrb, hlt⟩ := hI.holder_min h0 tsh rh b h3 htsh2 hr hx
      have hneb : b ≠ t := by
        intro hEq
        obtain ⟨tsb2, htb2, hphb⟩ := hI.queue_waiting b hx
        rw [hEq, h1] at htb2
        cases Option.some_inj.mp htb2
        rw [h2] at hphb
        cases hphb
      exact ⟨tsb, rb, hpres htsb hneb, hrb, hlt⟩
    · rw [List.mem_singleton] at hx
      subst hx
      have hclk := hI.clock_lt _ _ _ htsh2 (Or.inl hr)
      exact ⟨_, s.clock, setTask_self _ _ _, rfl, hclk⟩
  · intro h tsh rh a tsa ra hh htsh hr hta hra hlt
    have hh2 : s.holder = some h := hh
    rw [h3] at hh2
    cases Option.some_inj.mp hh2
    have hneh : h0 ≠ t := fun hEq => htne hEq.symm
    have htsh2 : s.task h0 = some tsh := by
      rcases setTask_eq_some htsh with ⟨hEq, rfl⟩ | ⟨_, hold⟩
      · exact absurd hEq hneh
      · exact hold
    rcases setTask_eq_some hta with ⟨rfl, rfl⟩ | ⟨hnea, holda⟩
    · have hra2 : s.clock = ra := Option.some_inj.mp hra
      have hclk := hI.clock_lt _ _ _ htsh2 (Or.inl hr)
      exact absurd hlt (by omega)
    · exact hI.holder_prio_lt h0 tsh rh a tsa ra h3 htsh2 hr holda hra hlt
  · intro h tsh rh a tsa ra hh htsh hr hta hra hlt
    have hh2 : s.holder = some h := hh
    rw [h3] at hh2
    cases Option.some_inj.mp hh2
    have hneh : h0 ≠ t := fun hEq => htne hEq.symm
    have htsh2 : s.task h0 = some tsh := by
      rcases setTask_eq_some htsh with ⟨hEq, rfl⟩ | ⟨_, hold⟩
      · exact absurd hEq hneh
      · exact hold
    rcases setTask_eq_some hta with ⟨rfl, rfl⟩ | ⟨hnea, holda⟩
    · show ts.startAt = none
      exact hs0
    · exact hI.holder_prio_gt h0 tsh rh a tsa ra h3 htsh2 hr holda hra hlt
  · intro a b tsa tsb ra rb kb ha hb hra hrb hlt hkb
    rcases setTask_eq_some hb with ⟨rfl, rfl⟩ | ⟨hneb, holdb⟩
    · have hkb2 : ts.startAt = some kb := hkb
      rw [hs0] at hkb2
      cases hkb2
    · rcases setTask_eq_some ha with ⟨rfl, rfl⟩ | ⟨hnea, holda⟩
      · have hclk := hI.clock_lt _ _ _ holdb (Or.inl hrb)
        have hra2 : s.clock = ra := Option.some_inj.mp hra
        exact absurd hlt (by omega)
      · exact hI.fifo a b _ _ ra rb kb holda holdb hra hrb hlt hkb
  · exact hI.delivered_nodup
  · intro e he
    obtain ⟨ts3, hts3, hph, hres⟩ := hI.delivered_done e he
    have hne2 : e.1 ≠ t := by
      intro hEq
      rw [hEq, h1] at hts3
      cases Option.some_inj.mp hts3
      rw [h2] at hph
      cases hph
    exact ⟨ts3, hpres hts3 hne2, hph, hres⟩
  · intro n tsn h hph
    rcases setTask_eq_some h with ⟨rfl, rfl⟩ | ⟨_, hold⟩
    · cases hph
    · exact hI.done_delivered _ _ hold hph

theorem startEff_task_self (s : Sys) (t : Nat) (ts : TaskState) :
    (startEff s t ts).task t =
      some { ts with phase := Phase.running, startAt := some s.clock } :=
  setTask_self _ _ _

theorem inv_start {s : Sys} {t : Nat} {ts : TaskState}
    (h1 : s.task t = some ts) (h2 : ts.phase = Phase.granted)
    (hI : SysInv s) : SysInv (startEff s t ts) := by
  obtain ⟨⟨r0, hr0⟩, hs0, he0, hd0⟩ := granted_ts hI h1 h2
  have hhold : s.holder = some t := hI.holder_unique _ _ h1 (Or.inl h2)
  have hr0clk : r0 < s.clock := hI.clock_lt _ _ _ h1 (Or.inl hr0)
  have hpres : ∀ {n : Nat} {tsn : TaskState}, s.task n = some tsn → n ≠ t →
      (startEff s t ts).task n = some tsn := by
    intro n tsn hn hne
    show setTask s.task t _ n = some tsn
    rw [setTask_ne _ _ _ hne]
    exact hn
  constructor
  · intro n tsn m h hst
    rcases setTask_eq_some h with ⟨rfl, rfl⟩ | ⟨hne2, hold⟩
    · have hst2 : ts.reachAt = some m ∨ some s.clock = some m ∨
          ts.endAt = some m ∨ ts.deliverAt = some m := hst
      rcases hst2 with hx | hx | hx | hx
      · have := hI.clock_lt _ _ _ h1 (Or.inl hx)
        show m < s.clock + 1
        omega
      · have hm : s.clock = m := Option.some_inj.mp hx
        show m < s.clock + 1
        omega
      · rw [he0] at hx; cases hx
      · rw [hd0] at hx; cases hx
    · exact Nat.lt_succ_of_lt (hI.clock_lt _ _ _ hold hst)
  · intro n tsn h
    rcases setTask_eq_some h with ⟨rfl, rfl⟩ | ⟨_, hold⟩
    · exact hI.task_lt _ _ h1
    · exact hI.task_lt _ _ hold
  · exact hI.issued_lt
  · exact hI.issued_nodup
  · intro hc
    have hc2 : s.holder = none := hc
    rw [hhold] at hc2
    cases hc2
  · intro h hh
    have hh2 : s.holder = some h := hh
    rw [hhold] at hh2
    cases Option.some_inj.mp hh2
    exact ⟨_, setTask_self _ _ _, Or.inr rfl⟩
  · intro n tsn h hph
    rcases setTask_eq_some h with ⟨rfl, rfl⟩ | ⟨hne2, hold⟩
    · show s.holder = some n
      exact hhold
    · show s.holder = some n
      exact hI.holder_unique _ _ hold hph
  · intro n hn
    have hn2 : n ∈ s.queue := hn
    obtain ⟨tsn, htsn, hphn⟩ := hI.queue_waiting n hn2
    have hne2 : n ≠ t := by
      intro hEq
      rw [hEq, h1] at htsn
      cases Option.some_inj.mp htsn
      rw [h2] at hphn
      cases hphn
    exact ⟨tsn, hpres htsn hne2, hphn⟩
  · intro n tsn h hph
    rcases setTask_eq_some h with ⟨rfl, rfl⟩ | ⟨hne2, hold⟩
    · cases hph
    · exact hI.waiting_queue _ _ hold hph
  · show (s.queue).Pairwise (rlt (startEff s t ts).task)
    refine hI.queue_sorted.imp_of_mem (fun {a b} hma hmb hr => ?_)
    obtain ⟨tsa, tsb, ra, rb, hta, htb, hra, hrb, hlt⟩ := hr
    have hnea : a ≠ t := by
      intro hEq
      obtain ⟨tsa2, hta2, hpha⟩ := hI.queue_waiting a hma
      rw [hEq, h1] at hta2
      cases Option.some_inj.mp hta2
      rw [h2] at hpha
      cases hpha
    have hneb : b ≠ t := by
      intro hEq
      obtain ⟨tsb2, htb2, hphb⟩ := hI.queue_waiting b hmb
      rw [hEq, h1] at htb2
      cases Option.some_inj.mp htb2
      rw [h2] at hphb
      cases hphb
    exact ⟨tsa, tsb, ra, rb, hpres hta hnea, hpres htb hneb, hra, hrb, hlt⟩
  · intro n tsn h
    rcases setTask_eq_some h with ⟨rfl, rfl⟩ | ⟨_, hold⟩
    · exact ⟨⟨r0, s.clock, hr0, rfl, hr0clk⟩, he0, hd0⟩
    · exact hI.phase_ts _ _ hold
  · intro h tsh rh b hh htsh hr hb
    have hh2 : s.holder = some h := hh
    rw [hhold] at hh2
    cases Option.some_inj.mp hh2
    rw [startEff_task_self] at htsh
    cases Option.some_inj.mp htsh
    have hr2 : ts.reachAt = some rh := hr
    have hb2 : b ∈ s.queue := hb
    obtain ⟨tsb, rb, htsb, hrb, hlt⟩ := hI.holder_min t ts rh b hhold h1 hr2 hb2
    have hneb : b ≠ t := by
      intro hEq
      obtain ⟨tsb2, htb2, hphb⟩ := hI.queue_waiting b hb2
      rw [hEq, h1] at htb2
      cases Option.some_inj.mp htb2
      rw [h2] at hphb
      cases hphb
    exact ⟨tsb, rb, hpres htsb hneb, hrb, hlt⟩
  · intro h tsh rh a tsa ra hh htsh hr hta hra hlt
    have hh2 : s.holder = some h := hh
    rw [hhold] at hh2
    cases Option.some_inj.mp hh2
    rw [startEff_task_self] at htsh
    cases Option.some_inj.mp htsh
    have hr2 : ts.reachAt = some rh := hr
    rcases setTask_eq_some hta with ⟨rfl, rfl⟩ | ⟨hnea, holda⟩
    · have hra2 : ts.reachAt = some ra := hra
      rw [hr2] at hra2
      cases Option.some_inj.mp hra2
      exact absurd hlt (lt_irrefl _)
    · exact hI.holder_prio_lt t ts rh a tsa ra hhold h1 hr2 holda hra hlt
  · intro h tsh rh a tsa ra hh htsh hr hta hra hlt
    have hh2 : s.holder = some h := hh
    rw [hhold] at hh2
    cases Option.some_inj.mp hh2
    rw [startEff_task_self] at htsh
    cases Option.some_inj.mp htsh
    have hr2 : ts.reachAt = some rh := hr
    rcases setTask_eq_some hta with ⟨rfl, rfl⟩ | ⟨hnea, holda⟩
    · have hra2 : ts.reachAt = some ra := hra
      rw [hr2] at hra2
      cases Option.some_inj.mp hra2
      exact absurd hlt (lt_irrefl _)
    · exact hI.holder_prio_gt t ts rh a tsa ra hhold h1 hr2 holda hra hlt
  · intro a b tsa tsb ra rb kb ha hb hra hrb hlt hkb
    rcases setTask_eq_some hb with ⟨rfl, rfl⟩ | ⟨hneb, holdb⟩
    · have hkb2 : s.clock = kb := Option.some_inj.mp hkb
      have hrb2 : ts.reachAt = some rb := hrb
      rcases setTask_eq_some ha with ⟨rfl, rfl⟩ | ⟨hnea, holda⟩
      · have hra2 : ts.reachAt = some ra := hra
        rw [hrb2] at hra2
        cases Option.some_inj.mp hra2
        exact absurd hlt (lt_irrefl _)
      · obtain ⟨na, hend⟩ :=
          hI.holder_prio_lt b ts rb a tsa ra hhold h1 hrb2 holda hra hlt
        have := hI.clock_lt _ _ _ holda (Or.inr (Or.inr (Or.inl hend)))
        exact ⟨na, hend, by omega⟩
    · rcases setTask_eq_some ha with ⟨rfl, rfl⟩ | ⟨hnea, holda⟩
      · have hra2 : ts.reachAt = some ra := hra
        have := hI.holder_prio_gt a ts ra b tsb rb hhold h1 hra2 holdb hrb hlt
        rw [this] at hkb
        cases hkb
      · exact hI.fifo a b _ _ ra rb kb holda holdb hra hrb hlt hkb
  · exact hI.delivered_nodup
  · intro e he
    obtain ⟨ts3, hts3, hph, hres⟩ := hI.delivered_done e he
    have hne2 : e.1 ≠ t := by
      intro hEq
      rw [hEq, h1] at hts3
      cases Option.some_inj.mp hts3
      rw [h2] at hph
      cases hph
    exact ⟨ts3, hpres hts3 hne2, hph, hres⟩
  · intro n tsn h hph
    rcases setTask_eq_some h with ⟨rfl, rfl⟩ | ⟨_, hold⟩
    · cases hph
    · exact hI.done_delivered _ _ hold hph

theorem inv_finishNext {s : Sys} {t : Nat} {ts : TaskState} {b : Nat}
    {rest : List Nat} {tsb : TaskState}
    (h1 : s.task t = some ts) (h2 : ts.phase = Phase.running)
    (hq : s.queue = b :: rest) (hb : s.task b = some tsb)
    (hI : SysInv s) : SysInv (finishNextEff s t ts b rest tsb) := by
  obtain ⟨⟨r0, k0, hr0, hk0, hrk⟩, he0, hd0⟩ := running_ts hI h1 h2
  have hhold : s.holder = some t := hI.holder_unique _ _ h1 (Or.inr h2)
  have hk0clk : k0 < s.clock := hI.clock_lt _ _ _ h1 (Or.inr (Or.inl hk0))
  have hr0clk : r0 < s.clock := hI.clock_lt _ _ _ h1 (Or.inl hr0)
  have hbq : b ∈ s.queue := by rw [hq]; exact List.mem_cons_self _ _
  obtain ⟨tsb2, htb2, hphb2⟩ := hI.queue_waiting b hbq
  rw [hb] at htb2
  cases Option.some_inj.mp htb2
  obtain ⟨⟨rb0, hrb0⟩, hsb0, heb0, hdb0⟩ := waiting_ts hI hb hphb2
  have hrb0clk : rb0 < s.clock := hI.clock_lt _ _ _ hb (Or.inl hrb0)
  have htneb : t ≠ b := by
    intro hEq
    rw [hEq, hb] at h1
    cases Option.some_inj.mp h1
    rw [hphb2] at h2
    cases h2
  obtain ⟨tsb3, rb3, htb3, hrb3, hr0rb⟩ := hI.holder_min t ts r0 b hhold h1 hr0 hbq
  rw [hb] at htb3
  cases Option.some_inj.mp htb3
  rw [hrb0] at hrb3
  cases Option.some_inj.mp hrb3
  have hpw := hI.queue_sorted
  rw [hq, List.pairwise_cons] at hpw
  obtain ⟨hpwb, hpwrest⟩ := hpw
  have hbrest : b ∉ rest := by
    intro hmem
    obtain ⟨tsb1, tsb4, rb1, rb2, hb1, hb4, hrx1, hrx2, hltb⟩ := hpwb b hmem
    rw [hb] at hb1 hb4
    cases Option.some_inj.mp hb1
    cases Option.some_inj.mp hb4
    rw [hrx1] at hrx2
    cases Option.some_inj.mp hrx2
    exact absurd hltb (lt_irrefl _)
  have hwq : ∀ {x : Nat} {tsx : TaskState}, s.task x = some tsx →
      tsx.phase = Phase.waiting → x ≠ t := by
    intro x tsx hx hphx hEq
    rw [hEq, h1] at hx
    cases Option.some_inj.mp hx
    rw [h2] at hphx
    cases hphx
  have hlookb : (finishNextEff s t ts b rest tsb).task b =
      some { tsb with phase := Phase.granted } := setTask_self _ _ _
  have hlookt : (finishNextEff s t ts b rest tsb).task t =
      some { ts with phase := Phase.delivering, endAt := some s.clock } := by
    show setTask (setTask s.task t _) b _ t = some _
    rw [setTask_ne _ _ _ htneb, setTask_self]
  have hpres : ∀ {n : Nat} {tsn : TaskState}, s.task n = some tsn → n ≠ b → n ≠ t →
      (finishNextEff s t ts b rest tsb).task n = some tsn := by
    intro n tsn hn hnb hnt
    show setTask (setTask s.task t _) b _ n = some tsn
    rw [setTask_ne _ _ _ hnb, setTask_ne _ _ _ hnt]
    exact hn
  have hlook : ∀ {n : Nat} {tsn : TaskState},
      (finishNextEff s t ts b rest tsb).task n = some tsn →
      (n = b ∧ tsn = { tsb with phase := Phase.granted }) ∨
      (n ≠ b ∧ n = t ∧
        tsn = { ts with phase := Phase.delivering, endAt := some s.clock }) ∨
      (n ≠ b ∧ n ≠ t ∧ s.task n = some tsn) := by
    intro n tsn h
    have hx : setTask (setTask s.task t
        { ts with phase := Phase.delivering, endAt := some s.clock }) b
        { tsb with phase := Phase.granted } n = some tsn := h
    rcases setTask_eq_some hx with ⟨rfl, rfl⟩ | ⟨hneb, hy⟩
    · exact Or.inl ⟨rfl, rfl⟩
    · rcases setTask_eq_some hy with ⟨rfl, rfl⟩ | ⟨hnet, hz⟩
      · exact Or.inr (Or.inl ⟨hneb, rfl, rfl⟩)
      · exact Or.inr (Or.inr ⟨hneb, hnet, hz⟩)
  constructor
  · intro n tsn m h hst
    rcases hlook h with ⟨rfl, rfl⟩ | ⟨hneb, rfl, rfl⟩ | ⟨hneb, hnet, hold⟩
    · have hst2 : tsb.reachAt = some m ∨ tsb.startAt = some m ∨
          tsb.endAt = some m ∨ tsb.deliverAt = some m := hst
      show m < s.clock + 1
      rcases hst2 with hx | hx | hx | hx
      · have := hI.clock_lt _ _ _ hb (Or.inl hx); omega
      · rw [hsb0] at hx; cases hx
      · rw [heb0] at hx; cases hx
      · rw [hdb0] at hx; cases hx
    · have hst2 : ts.reachAt = some m ∨ ts.startAt = some m ∨
          some s.clock = some m ∨ ts.deliverAt = some m := hst
      show m < s.clock + 1
      rcases hst2 with hx | hx | hx | hx
      · have := hI.clock_lt _ _ _ h1 (Or.inl hx); omega
      · have := hI.clock_lt _ _ _ h1 (Or.inr (Or.inl hx)); omega
      · have := Option.some_inj.mp hx; omega
      · rw [hd0] at hx; cases hx
    · exact Nat.lt_succ_of_lt (hI.clock_lt _ _ _ hold hst)
  · intro n tsn h
    rcases hlook h with ⟨rfl, rfl⟩ | ⟨hneb, rfl, rfl⟩ | ⟨hneb, hnet, hold⟩
    · exact hI.task_lt _ _ hb
    · exact hI.task_lt _ _ h1
    · exact hI.task_lt _ _ hold
  · exact hI.issued_lt
  · exact hI.issued_nodup
  · intro hc
    cases hc
  · intro h hh
    cases Option.some_inj.mp hh
    exact ⟨_, hlookb, Or.inl rfl⟩
  · intro n tsn h hph
    rcases hlook h with ⟨rfl, rfl⟩ | ⟨hneb, rfl, rfl⟩ | ⟨hneb, hnet, hold⟩
    · rfl
    · rcases hph with hx | hx <;> cases hx
    · have := hI.holder_unique _ _ hold hph
      rw [hhold] at this
      exact absurd (Option.some_inj.mp this).symm hnet
  · intro n hn
    have hn2 : n ∈ rest := hn
    have hnq : n ∈ s.queue := by rw [hq]; exact List.mem_cons_of_mem _ hn2
    obtain ⟨tsn, htsn, hphn⟩ := hI.queue_waiting n hnq
    have hnen : n ≠ b := fun hEq => hbrest (hEq ▸ hn2)
    exact ⟨tsn, hpres htsn hnen (hwq htsn hphn), hphn⟩
  · intro n tsn h hph
    rcases hlook h with ⟨rfl, rfl⟩ | ⟨hneb, rfl, rfl⟩ | ⟨hneb, hnet, hold⟩
    · cases hph
    · cases hph
    · have := hI.waiting_queue _ _ hold hph
      rw [hq] at this
      rcases List.mem_cons.mp this with hx | hx
      · exact absurd hx hneb
      · exact hx
  · show rest.Pairwise (rlt (finishNextEff s t ts b rest tsb).task)
    refine hpwrest.imp_of_mem (fun {x y} hmx hmy hr => ?_)
    obtain ⟨tsx, tsy, rx, ry, hx, hy, hrx, hry, hlt⟩ := hr
    obtain ⟨tsx2, hx2, hphx⟩ := hI.queue_waiting x
      (by rw [hq]; exact List.mem_cons_of_mem _ hmx)
    obtain ⟨tsy2, hy2, hphy⟩ := hI.queue_waiting y
      (by rw [hq]; exact List.mem_cons_of_mem _ hmy)
    rw [hx] at hx2
    cases Option.some_inj.mp hx2
    rw [hy] at hy2
    cases Option.some_inj.mp hy2
    exact ⟨tsx, tsy, rx, ry,
      hpres hx (fun hEq => hbrest (hEq ▸ hmx)) (hwq hx hphx),
      hpres hy (fun hEq => hbrest (hEq ▸ hmy)) (hwq hy hphy), hrx, hry, hlt⟩
  · intro n tsn h
    rcases hlook h with ⟨rfl, rfl⟩ | ⟨hneb, rfl, rfl⟩ | ⟨hneb, hnet, hold⟩
    · exact ⟨⟨rb0, hrb0⟩, hsb0, heb0, hdb0⟩
    · exact ⟨⟨r0, k0, s.clock, hr0, hk0, rfl, hrk, hk0clk⟩, hd0⟩
    · exact hI.phase_ts _ _ hold
  · intro h tsh rh b2 hh htsh hr hb2
    cases Option.some_inj.mp hh
    rw [hlookb] at htsh
    cases Option.some_inj.mp htsh
    have hr2 : tsb.reachAt = some rh := hr
    rw [hrb0] at hr2
    cases Option.some_inj.mp hr2
    have hb2r : b2 ∈ rest := hb2
    obtain ⟨tsb4, tsy, rb4, ry, hbx, hby, hrbx, hry, hltx⟩ := hpwb b2 hb2r
    rw [hb] at hbx
    cases Option.some_inj.mp hbx
    rw [hrb0] at hrbx
    cases Option.some_inj.mp hrbx
    obtain ⟨tsy2, hy2, hphy⟩ := hI.queue_waiting b2
      (by rw [hq]; exact List.mem_cons_of_mem _ hb2r)
    rw [hby] at hy2
    cases Option.some_inj.mp hy2
    exact ⟨tsy, ry,
      hpres hby (fun hEq => hbrest (hEq ▸ hb2r)) (hwq hby hphy), hry, hltx⟩
  · intro h tsh rh a tsa ra hh htsh hr hta hra hlt
    cases Option.some_inj.mp hh
    rw [hlookb] at htsh
    cases Option.some_inj.mp htsh
    have hr2 : tsb.reachAt = some rh := hr
    rw [hrb0] at hr2
    cases Option.some_inj.mp hr2
    rcases hlook hta with ⟨rfl, rfl⟩ | ⟨hneb, rfl, rfl⟩ | ⟨hneb, hnet, holda⟩
    · have hra2 : tsb.reachAt = some ra := hra
      rw [hrb0] at hra2
      cases Option.some_inj.mp hra2
      exact absurd hlt (lt_irrefl _)
    · exact ⟨s.clock, rfl⟩
    · cases hpha : tsa.phase
      case ready =>
        obtain ⟨hra0, _, _, _⟩ := ready_ts hI holda hpha
        rw [hra0] at hra
        cases hra
      case waiting =>
        have hmem := hI.waiting_queue _ _ holda hpha
        rw [hq] at hmem
        rcases List.mem_cons.mp hmem with hx | hx
        · exact absurd hx hneb
        · obtain ⟨tsb4, tsy, rb4, ry, hbx, hby, hrbx, hry, hltx⟩ := hpwb a hx
          rw [hb] at hbx
          cases Option.some_inj.mp hbx
          rw [hrb0] at hrbx
          cases Option.some_inj.mp hrbx
          rw [holda] at hby
          cases Option.some_inj.mp hby
          rw [hra] at hry
          cases Option.some_inj.mp hry
          exact absurd hlt (by omega)
      case granted =>
        have := hI.holder_unique _ _ holda (Or.inl hpha)
        rw [hhold] at this
        exact absurd (Option.some_inj.mp this).symm hnet
      case running =>
        have := hI.holder_unique _ _ holda (Or.inr hpha)
        rw [hhold] at this
        exact absurd (Option.some_inj.mp this).symm hnet
      case delivering =>
        obtain ⟨⟨r2, k2, n2, _, _, hend, _, _⟩, _⟩ := delivering_ts hI holda hpha
        exact ⟨n2, hend⟩
      case done =>
        obtain ⟨r2, k2, n2, d2, _, _, hend, _, _, _, _⟩ := done_ts hI holda hpha
        exact ⟨n2, hend⟩
  · intro h tsh rh a tsa ra hh htsh hr hta hra hlt
    cases Option.some_inj.mp hh
    rw [hlookb] at htsh
    cases Option.some_inj.mp htsh
    have hr2 : tsb.reachAt = some rh := hr
    rw [hrb0] at hr2
    cases Option.some_inj.mp hr2
    rcases hlook hta with ⟨rfl, rfl⟩ | ⟨hneb, rfl, rfl⟩ | ⟨hneb, hnet, holda⟩
    · have hra2 : tsb.reachAt = some ra := hra
      rw [hrb0] at hra2
      cases Option.some_inj.mp hra2
      exact absurd hlt (lt_irrefl _)
    · have hra2 : ts.reachAt = some ra := hra
      rw [hr0] at hra2
      cases Option.some_inj.mp hra2
      exact absurd hlt (by omega)
    · cases hpha : tsa.phase
      case ready =>
        obtain ⟨hra0, _, _, _⟩ := ready_ts hI holda hpha
        rw [hra0] at hra
        cases hra
      case waiting =>
        obtain ⟨_, hsx, _, _⟩ := waiting_ts hI holda hpha
        exact hsx
      case granted =>
        have := hI.holder_unique _ _ holda (Or.inl hpha)
        rw [hhold] at this
        exact absurd (Option.some_inj.mp this).symm hnet
      case running =>
        have := hI.holder_unique _ _ holda (Or.inr hpha)
        rw [hhold] at this
        exact absurd (Option.some_inj.mp this).symm hnet
      case delivering =>
        obtain ⟨⟨r2, k2, n2, hra3, hk2, hn2, _, _⟩, _⟩ := delivering_ts hI holda hpha
        have hnone := hI.holder_prio_gt t ts r0 a tsa ra hhold h1 hr0 holda hra
          (by omega)
        rw [hnone] at hk2
        cases hk2
      case done =>
        obtain ⟨r2, k2, n2, d2, hra3, hk2, hn2, _, _, _, _⟩ := done_ts hI holda hpha
        have hnone := hI.holder_prio_gt t ts r0 a tsa ra hhold h1 hr0 holda hra
          (by omega)
        rw [hnone] at hk2
        cases hk2
  · intro x y tsx tsy rx ry ky hx hy hrx hry hlt hky
    rcases hlook hy with ⟨rfl, rfl⟩ | ⟨hneyb, rfl, rfl⟩ | ⟨hneyb, hneyt, holdy⟩
    · have hky2 : tsb.startAt = some ky := hky
      rw [hsb0] at hky2
      cases hky2
    · have hky2 : ts.startAt = some ky := hky
      rw [hk0] at hky2
      cases Option.some_inj.mp hky2
      have hry2 : ts.reachAt = some ry := hry
      rw [hr0] at hry2
      cases Option.some_inj.mp hry2
      rcases hlook hx with ⟨rfl, rfl⟩ | ⟨hnexb, rfl, rfl⟩ | ⟨hnexb, hnext, holdx⟩
      · have hrx2 : tsb.reachAt = some rx := hrx
        rw [hrb0] at hrx2
        cases Option.some_inj.mp hrx2
        exact absurd hlt (by omega)
      · have hrx2 : ts.reachAt = some rx := hrx
        rw [hr0] at hrx2
        cases Option.some_inj.mp hrx2
        exact absurd hlt (lt_irrefl _)
      · exact hI.fifo x y tsx ts rx r0 k0 holdx h1 hrx hr0 hlt hk0
    · have hng : ¬ r0 < ry := by
        intro hgt
        have hnone := hI.holder_prio_gt t ts r0 y tsy ry hhold h1 hr0 holdy hry hgt
        rw [hnone] at hky
        cases hky
      rcases hlook hx with ⟨rfl, rfl⟩ | ⟨hnexb, rfl, rfl⟩ | ⟨hnexb, hnext, holdx⟩
      · have hrx2 : tsb.reachAt = some rx := hrx
        rw [hrb0] at hrx2
        cases Option.some_inj.mp hrx2
        exact absurd (show r0 < ry by omega) hng
      · have hrx2 : ts.reachAt = some rx := hrx
        rw [hr0] at hrx2
        cases Option.some_inj.mp hrx2
        exact absurd hlt hng
      · exact hI.fifo x y tsx tsy rx ry ky holdx holdy hrx hry hlt hky
  · exact hI.delivered_nodup
  · intro e he
    obtain ⟨ts3, hts3, hph, hres⟩ := hI.delivered_done e he
    have hne1 : e.1 ≠ t := by
      intro hEq
      rw [hEq, h1] at hts3
      cases Option.some_inj.mp hts3
      rw [h2] at hph
      cases hph
    have hne2 : e.1 ≠ b := by
      intro hEq
      rw [hEq, hb] at hts3
      cases Option.some_inj.mp hts3
      rw [hphb2] at hph
      cases hph
    exact ⟨ts3, hpres hts3 hne2 hne1, hph, hres⟩
  · intro n tsn h hph
    rcases hlook h with ⟨rfl, rfl⟩ | ⟨hneb, rfl, rfl⟩ | ⟨hneb, hnet, hold⟩
    · cases hph
    · cases hph
    · exact hI.done_delivered _ _ hold hph

theorem inv_finishNone {s : Sys} {t : Nat} {ts : TaskState}
    (h1 : s.task t = some ts) (h2 : ts.phase = Phase.running)
    (hq : s.queue = []) (hI : SysInv s) : SysInv (finishNoneEff s t ts) := by
  obtain ⟨⟨r0, k0, hr0, hk0, hrk⟩, he0, hd0⟩ := running_ts hI h1 h2
  have hhold : s.holder = some t := hI.holder_unique _ _ h1 (Or.inr h2)
  have hk0clk : k0 < s.clock := hI.clock_lt _ _ _ h1 (Or.inr (Or.inl hk0))
  have hpres : ∀ {n : Nat} {tsn : TaskState}, s.task n = some tsn → n ≠ t →
      (finishNoneEff s t ts).task n = some tsn := by
    intro n tsn hn hne
    show setTask s.task t _ n = some tsn
    rw [setTask_ne _ _ _ hne]
    exact hn
  constructor
  · intro n tsn m h hst
    rcases setTask_eq_some h with ⟨rfl, rfl⟩ | ⟨hne2, hold⟩
    · have hst2 : ts.reachAt = some m ∨ ts.startAt = some m ∨
          some s.clock = some m ∨ ts.deliverAt = some m := hst
      show m < s.clock + 1
      rcases hst2 with hx | hx | hx | hx
      · have := hI.clock_lt _ _ _ h1 (Or.inl hx); omega
      · have := hI.clock_lt _ _ _ h1 (Or.inr (Or.inl hx)); omega
      · have := Option.some_inj.mp hx; omega
      · rw [hd0] at hx; cases hx
    · exact Nat.lt_succ_of_lt (hI.clock_lt _ _ _ hold hst)
  · intro n tsn h
    rcases setTask_eq_some h with ⟨rfl, rfl⟩ | ⟨_, hold⟩
    · exact hI.task_lt _ _ h1
    · exact hI.task_lt _ _ hold
  · exact hI.issued_lt
  · exact hI.issued_nodup
  · intro _
    show s.queue = []
    exact hq
  · intro h hh
    cases hh
  · intro n tsn h hph
    rcases setTask_eq_some h with ⟨rfl, rfl⟩ | ⟨hne2, hold⟩
    · rcases hph with hx | hx <;> cases hx
    · have := hI.holder_unique _ _ hold hph
      rw [hhold] at this
      exact absurd (Option.some_inj.mp this).symm hne2
  · intro n hn
    have hn2 : n ∈ s.queue := hn
    rw [hq] at hn2
    cases hn2
  · intro n tsn h hph
    rcases setTask_eq_some h with ⟨rfl, rfl⟩ | ⟨hne2, hold⟩
    · cases hph
    · exact hI.waiting_queue _ _ hold hph
  · show (s.queue).Pairwise (rlt (finishNoneEff s t ts).task)
    rw [hq]
    exact List.Pairwise.nil
  · intro n tsn h
    rcases setTask_eq_some h with ⟨rfl, rfl⟩ | ⟨_, hold⟩
    · exact ⟨⟨r0, k0, s.clock, hr0, hk0, rfl, hrk, hk0clk⟩, hd0⟩
    · exact hI.phase_ts _ _ hold
  · intro h tsh rh b hh htsh hr hb
    cases hh
  · intro h tsh rh a tsa ra hh htsh hr hta hra hlt
    cases hh
  · intro h tsh rh a tsa ra hh htsh hr hta hra hlt
    cases hh
  · intro x y tsx tsy rx ry ky hx hy hrx hry hlt hky
    rcases setTask_eq_some hy with ⟨rfl, rfl⟩ | ⟨hneyt, holdy⟩
    · have hky2 : ts.startAt = some ky := hky
      rw [hk0] at hky2
      cases Option.some_inj.mp hky2
      have hry2 : ts.reachAt = some ry := hry
      rw [hr0] at hry2
      cases Option.some_inj.mp hry2
      rcases setTask_eq_some hx with ⟨rfl, rfl⟩ | ⟨hnext, holdx⟩
      · have hrx2 : ts.reachAt = some rx := hrx
        rw [hr0] at hrx2
        cases Option.some_inj.mp hrx2
        exact absurd hlt (lt_irrefl _)
      · exact hI.fifo x y tsx ts rx r0 k0 holdx h1 hrx hr0 hlt hk0
    · have hng : ¬ r0 < ry := by
        intro hgt
        have hnone := hI.holder_prio_gt t ts r0 y tsy ry hhold h1 hr0 holdy hry hgt
        rw [hnone] at hky
        cases hky
      rcases setTask_eq_some hx with ⟨rfl, rfl⟩ | ⟨hnext, holdx⟩
      · have hrx2 : ts.reachAt = some rx := hrx
        rw [hr0] at hrx2
        cases Option.some_inj.mp hrx2
        exact absurd hlt hng
      · exact hI.fifo x y tsx tsy rx ry ky holdx holdy hrx hry hlt hky
  · exact hI.delivered_nodup
  · intro e he
    obtain ⟨ts3, hts3, hph, hres⟩ := hI.delivered_done e he
    have hne1 : e.1 ≠ t := by
      intro hEq
      rw [hEq, h1] at hts3
      cases Option.some_inj.mp hts3
      rw [h2] at hph
      cases hph
    exact ⟨ts3, hpres hts3 hne1, hph, hres⟩
  · intro n tsn h hph
    rcases setTask_eq_some h with ⟨rfl, rfl⟩ | ⟨_, hold⟩
    · cases hph
    · exact hI.done_delivered _ _ hold hph

theorem inv_deliver {s : Sys} {t : Nat} {ts : TaskState}
    (h1 : s.task t = some ts) (h2 : ts.phase = Phase.delivering)
    (hI : SysInv s) : SysInv (deliverEff s t ts) := by
  obtain ⟨⟨r0, k0, n0, hr0, hk0, hn0, hrk, hkn⟩, hd0⟩ := delivering_ts hI h1 h2
  have hn0clk : n0 < s.clock := hI.clock_lt _ _ _ h1 (Or.inr (Or.inr (Or.inl hn0)))
  have hpres : ∀ {n : Nat} {tsn : TaskState}, s.task n = some tsn → n ≠ t →
      (deliverEff s t ts).task n = some tsn := by
    intro n tsn hn hne
    show setTask s.task t _ n = some tsn
    rw [setTask_ne _ _ _ hne]
    exact hn
  have hmemD : ∀ {e : Nat × JobResult × Bool}, e ∈ (deliverEff s t ts).delivered →
      e ∈ s.delivered ∨ e = (t, process_job_result ts.params ts.oracle,
        sendDelivered (ConnectionManager.send_result s.conns t
          (process_job_result ts.params ts.oracle))) := by
    intro e he
    have he2 : e ∈ s.delivered ++ [(t, process_job_result ts.params ts.oracle,
        sendDelivered (ConnectionManager.send_result s.conns t
          (process_job_result ts.params ts.oracle)))] := he
    rcases List.mem_append.mp he2 with hx | hx
    · exact Or.inl hx
    · exact Or.inr (List.mem_singleton.mp hx)
  constructor
  · intro n tsn m h hst
    rcases setTask_eq_some h with ⟨rfl, rfl⟩ | ⟨hne2, hold⟩
    · have hst2 : ts.reachAt = some m ∨ ts.startAt = some m ∨
          ts.endAt = some m ∨ some s.clock = some m := hst
      show m < s.clock + 1
      rcases hst2 with hx | hx | hx | hx
      · have := hI.clock_lt _ _ _ h1 (Or.inl hx); omega
      · have := hI.clock_lt _ _ _ h1 (Or.inr (Or.inl hx)); omega
      · have := hI.clock_lt _ _ _ h1 (Or.inr (Or.inr (Or.inl hx))); omega
      · have := Option.some_inj.mp hx; omega
    · exact Nat.lt_succ_of_lt (hI.clock_lt _ _ _ hold hst)
  · intro n tsn h
    rcases setTask_eq_some h with ⟨rfl, rfl⟩ | ⟨_, hold⟩
    · exact hI.task_lt _ _ h1
    · exact hI.task_lt _ _ hold
  · exact hI.issued_lt
  · exact hI.issued_nodup
  · exact hI.holder_none
  · intro h hh
    have hh2 : s.holder = some h := hh
    obtain ⟨tsh0, hth0, hph0⟩ := hI.holder_some h hh2
    have hneh : h ≠ t := by
      intro hEq
      rw [hEq, h1] at hth0
      cases Option.some_inj.mp hth0
      rcases hph0 with hx | hx <;> (rw [h2] at hx; cases hx)
    exact ⟨tsh0, hpres hth0 hneh, hph0⟩
  · intro n tsn h hph
    rcases setTask_eq_some h with ⟨rfl, rfl⟩ | ⟨hne2, hold⟩
    · rcases hph with hx | hx <;> cases hx
    · exact hI.holder_unique _ _ hold hph
  · intro n hn
    have hn2 : n ∈ s.queue := hn
    obtain ⟨tsn, htsn, hphn⟩ := hI.queue_waiting n hn2
    have hne2 : n ≠ t := by
      intro hEq
      rw [hEq, h1] at htsn
      cases Option.some_inj.mp htsn
      rw [h2] at hphn
      cases hphn
    exact ⟨tsn, hpres htsn hne2, hphn⟩
  · intro n tsn h hph
    rcases setTask_eq_some h with ⟨rfl, rfl⟩ | ⟨hne2, hold⟩
    · cases hph
    · exact hI.waiting_queue _ _ hold hph
  · show (s.queue).Pairwise (rlt (deliverEff s t ts).task)
    refine hI.queue_sorted.imp_of_mem (fun {x y} hmx hmy hr => ?_)
    obtain ⟨tsx, tsy, rx, ry, hx, hy, hrx, hry, hlt⟩ := hr
    have hnex : x ≠ t := by
      intro hEq
      obtain ⟨tsx2, hx2, hphx⟩ := hI.queue_waiting x hmx
      rw [hEq, h1] at hx2
      cases Option.some_inj.mp hx2
      rw [h2] at hphx
      cases hphx
    have hney : y ≠ t := by
      intro hEq
      obtain ⟨tsy2, hy2, hphy⟩ := hI.queue_waiting y hmy
      rw [hEq, h1] at hy2
      cases Option.some_inj.mp hy2
      rw [h2] at hphy
      cases hphy
    exact ⟨tsx, tsy, rx, ry, hpres hx hnex, hpres hy hney, hrx, hry, hlt⟩
  · intro n tsn h
    rcases setTask_eq_some h with ⟨rfl, rfl⟩ | ⟨_, hold⟩
    · exact ⟨r0, k0, n0, s.clock, hr0, hk0, hn0, rfl, hrk, hkn, hn0clk⟩
    · exact hI.phase_ts _ _ hold
  · intro h tsh rh b hh htsh hr hb
    have hh2 : s.holder = some h := hh
    obtain ⟨tsh0, hth0, hph0⟩ := hI.holder_some h hh2
    have hneh : h ≠ t := by
      intro hEq
      rw [hEq, h1] at hth0
      cases Option.some_inj.mp hth0
      rcases hph0 with hx | hx <;> (rw [h2] at hx; cases hx)
    have htsh2 : s.task h = some tsh := by
      rcases setTask_eq_some htsh with ⟨hEq, rfl⟩ | ⟨_, hold⟩
      · exact absurd hEq hneh
      · exact hold
    have hb2 : b ∈ s.queue := hb
    obtain ⟨tsb, rb, htsb, hrb, hlt⟩ := hI.holder_min h tsh rh b hh2 htsh2 hr hb2
    have hneb : b ≠ t := by
      intro hEq
      obtain ⟨tsb2, htb2, hphb⟩ := hI.queue_waiting b hb2
      rw [hEq, h1] at htb2
      cases Option.some_inj.mp htb2
      rw [h2] at hphb
      cases hphb
    exact ⟨tsb, rb, hpres htsb hneb, hrb, hlt⟩
  · intro h tsh rh a tsa ra hh htsh hr hta hra hlt
    have hh2 : s.holder = some h := hh
    obtain ⟨tsh0, hth0, hph0⟩ := hI.holder_some h hh2
    have hneh : h ≠ t := by
      intro hEq
      rw [hEq, h1] at hth0
      cases Option.some_inj.mp hth0
      rcases hph0 with hx | hx <;> (rw [h2] at hx; cases hx)
    have htsh2 : s.task h = some tsh := by
      rcases setTask_eq_some htsh with ⟨hEq, rfl⟩ | ⟨_, hold⟩
      · exact absurd hEq hneh
      · exact hold
    rcases setTask_eq_some hta with ⟨rfl, rfl⟩ | ⟨hnea, holda⟩
    · exact ⟨n0, hn0⟩
    · exact hI.holder_prio_lt h tsh rh a tsa ra hh2 htsh2 hr holda hra hlt
  · intro h tsh rh a tsa ra hh htsh hr hta hra hlt
    have hh2 : s.holder = some h := hh
    obtain ⟨tsh0, hth0, hph0⟩ := hI.holder_some h hh2
    have hneh : h ≠ t := by
      intro hEq
      rw [hEq, h1] at hth0
      cases Option.some_inj.mp hth0
      rcases hph0 with hx | hx <;> (rw [h2] at hx; cases hx)
    have htsh2 : s.task h = some tsh := by
      rcases setTask_eq_some htsh with ⟨hEq, rfl⟩ | ⟨_, hold⟩
      · exact absurd hEq hneh
      · exact hold
    rcases setTask_eq_some hta with ⟨rfl, rfl⟩ | ⟨hnea, holda⟩
    · have hra2 : ts.reachAt = some ra := hra
      have := hI.holder_prio_gt h tsh rh a ts ra hh2 htsh2 hr h1 hra2 hlt
      rw [this] at hk0
      cases hk0
    · exact hI.holder_prio_gt h tsh rh a tsa ra hh2 htsh2 hr holda hra hlt
  · intro x y tsx tsy rx ry ky hx hy hrx hry hlt hky
    rcases setTask_eq_some hy with ⟨rfl, rfl⟩ | ⟨hneyt, holdy⟩
    · have hky2 : ts.startAt = some ky := hky
      have hry2 : ts.reachAt = some ry := hry
      rcases setTask_eq_some hx with ⟨rfl, rfl⟩ | ⟨hnext, holdx⟩
      · have hrx2 : ts.reachAt = some rx := hrx
        rw [hry2] at hrx2
        cases Option.some_inj.mp hrx2
        exact absurd hlt (lt_irrefl _)
      · exact hI.fifo x y tsx ts rx ry ky holdx h1 hrx hry2 hlt hky2
    · rcases setTask_eq_some hx with ⟨rfl, rfl⟩ | ⟨hnext, holdx⟩
      · have hrx2 : ts.reachAt = some rx := hrx
        obtain ⟨na, hend, hlt2⟩ :=
          hI.fifo x y ts tsy rx ry ky h1 holdy hrx2 hry hlt hky
        exact ⟨na, hend, hlt2⟩
      · exact hI.fifo x y tsx tsy rx ry ky holdx holdy hrx hry hlt hky
  · show ((s.delivered ++ [(t, process_job_result ts.params ts.oracle,
        sendDelivered (ConnectionManager.send_result s.conns t
          (process_job_result ts.params ts.oracle)))]).map (fun e => e.1)).Nodup
    rw [List.map_append]
    refine List.Nodup.append hI.delivered_nodup (by simp) ?_
    intro a ha hb
    simp only [List.map_cons, List.map_nil, List.mem_singleton] at hb
    subst hb
    rw [List.mem_map] at ha
    obtain ⟨e, hmem, hfst⟩ := ha
    obtain ⟨ts3, hts3, hph, _⟩ := hI.delivered_done e hmem
    rw [hfst, h1] at hts3
    cases Option.some_inj.mp hts3
    rw [h2] at hph
    cases hph
  · intro e he
    rcases hmemD he with hx | hx
    · obtain ⟨ts3, hts3, hph, hres⟩ := hI.delivered_done e hx
      have hne2 : e.1 ≠ t := by
        intro hEq
        rw [hEq, h1] at hts3
        cases Option.some_inj.mp hts3
        rw [h2] at hph
        cases hph
      exact ⟨ts3, hpres hts3 hne2, hph, hres⟩
    · subst hx
      exact ⟨_, setTask_self _ _ _, rfl, rfl⟩
  · intro n tsn h hph
    have hgoal : (deliverEff s t ts).delivered.map (fun e => e.1) =
        s.delivered.map (fun e => e.1) ++ [t] := by
      show (s.delivered ++ [(t, process_job_result ts.params ts.oracle,
          sendDelivered (ConnectionManager.send_result s.conns t
            (process_job_result ts.params ts.oracle)))]).map (fun e => e.1) = _
      rw [List.map_append]
      rfl
    rcases setTask_eq_some h with ⟨rfl, rfl⟩ | ⟨hne2, hold⟩
    · rw [hgoal]
      exact List.mem_append.mpr (Or.inr (List.mem_singleton.mpr rfl))
    · rw [hgoal]
      exact List.mem_append.mpr (Or.inl (hI.done_delivered _ _ hold hph))

theorem inv_connect {s : Sys} (jobId : Nat) (ws : Chan) (hI : SysInv s) :
    SysInv (connectEff s jobId ws) := by
  constructor
  · intro n tsn m h hst
    exact Nat.lt_succ_of_lt (hI.clock_lt _ _ _ h hst)
  · exact hI.task_lt
  · exact hI.issued_lt
  · exact hI.issued_nodup
  · exact hI.holder_none
  · exact hI.holder_some
  · exact hI.holder_unique
  · exact hI.queue_waiting
  · exact hI.waiting_queue
  · exact hI.queue_sorted
  · exact hI.phase_ts
  · exact hI.holder_min
  · exact hI.holder_prio_lt
  · exact hI.holder_prio_gt
  · exact hI.fifo
  · exact hI.delivered_nodup
  · exact hI.delivered_done
  · exact hI.done_delivered

theorem inv_disconnect {s : Sys} (jobId : Nat) (hI : SysInv s) :
    SysInv (disconnectEff s jobId) := by
  constructor
  · intro n tsn m h hst
    exact Nat.lt_succ_of_lt (hI.clock_lt _ _ _ h hst)
  · exact hI.task_lt
  · exact hI.issued_lt
  · exact hI.issued_nodup
  · exact hI.holder_none
  · exact hI.holder_some
  · exact hI.holder_unique
  · exact hI.queue_waiting
  · exact hI.waiting_queue
  · exact hI.queue_sorted
  · exact hI.phase_ts
  · exact hI.holder_min
  · exact hI.holder_prio_lt
  · exact hI.holder_prio_gt
  · exact hI.fifo
  · exact hI.delivered_nodup
  · exact hI.delivered_done
  · exact hI.done_delivered

/-- One step preserves the invariant. -/
theorem inv_step {s s2 : Sys} (hI : SysInv s) (hstep : Step s s2) : SysInv s2 := by
  cases hstep with
  | submit jp o => exact inv_submit jp o hI
  | acquireNow t ts h1 h2 h3 => exact inv_acquire h1 h2 h3 hI
  | enqueue t ts h h1 h2 h3 => exact inv_enqueue h1 h2 h3 hI
  | startBackend t ts h1 h2 => exact inv_start h1 h2 hI
  | finishNone t ts h1 h2 hq => exact inv_finishNone h1 h2 hq hI
  | finishNext t ts b rest tsb h1 h2 hq hb => exact inv_finishNext h1 h2 hq hb hI
  | deliver t ts h1 h2 => exact inv_deliver h1 h2 hI
  | wsConnect jobId ws => exact inv_connect jobId ws hI
  | wsDisconnect jobId => exact inv_disconnect jobId hI

/-- Every reachable state of the gatekeeper satisfies the invariant. -/
theorem reachable_inv {s : Sys} (h : Reachable s) : SysInv s := by
  induction h with
  | init => exact inv_init
  | step _ hstep ih => exact inv_step ih hstep

theorem findConn_eraseConn (l : List (Nat × Chan)) (h : Nat) :
    ConnectionManager.findConn (ConnectionManager.eraseConn l h) h = none := by
  induction l with
  | nil => rfl
  | cons hd tl ih =>
    obtain ⟨k, w⟩ := hd
    by_cases hk : k = h
    · simp [ConnectionManager.eraseConn, hk, ih]
    · simp [ConnectionManager.eraseConn, ConnectionManager.findConn, hk, ih]

/-! ## Claim theorems -/

/-- Claim C4: whenever the backend invocation (including dereferencing a
missing parameter field, a missing artifact, or a failed relocation)
raises an exception `e`, `process_job` catches it at its `except`
boundary and the job's result is the Failure payload
`format=error, error=str(e)` with the original message preserved; no
exception escapes `process_job`. -/
theorem C4_exception_caught :
    ∀ (jp : JobParams) (o : BackendOracle) (e : String),
    (run_musetalk_inference jp o).1 = Except.error e →
    process_job_try jp o = Except.error e ∧
    process_job_result jp o = JobResult.error e ∧
    resultPairs (process_job_result jp o) = [("format", "error"), ("error", e)] := by
  intro jp o e h
  have h1 : process_job_try jp o = Except.error e := by
    unfold process_job_try
    rw [h]
  have h2 : process_job_result jp o = JobResult.error e := by
    unfold process_job_result
    rw [h1]
  exact ⟨h1, h2, by rw [h2]; rfl⟩

/-- Witness for C4: the empty parameter bundle makes the backend call
raise a `KeyError` on `audio_path`, and the job result is the error
payload carrying that message. -/
theorem C4_witness :
    (run_musetalk_inference jpEmpty okOracle).1 =
      Except.error "KeyError: audio_path" ∧
    process_job_result jpEmpty okOracle =
      JobResult.error "KeyError: audio_path" :=
  ⟨rfl, (C4_exception_caught jpEmpty okOracle "KeyError: audio_path" rfl).2.1⟩

/-- Claim C5: when the backend invocation succeeds with a temporary
artifact path, the artifact is renamed from that temporary path to the
caller-specified `output_file_path`, and the Success payload is
`format=filePath, data=<final path>, filename=<basename of final
path>` — `data` is the caller's output path. -/
theorem C5_success_relocation :
    ∀ (jp : JobParams) (o : BackendOracle) (temp outp : String),
    requireKeys jp predictArgKeys = Except.ok () →
    o.predict = Except.ok (some temp) → temp ≠ "" →
    jp.get? "output_file_path" = some outp → o.renameOk = true →
    run_musetalk_inference jp o = (Except.ok outp, [FsOp.rename temp outp]) ∧
    process_job_result jp o = JobResult.filePath outp (basename outp) ∧
    resultPairs (process_job_result jp o) =
      [("format", "filePath"), ("data", outp), ("filename", basename outp)] := by
  intro jp o temp outp hreq hpred htemp hout hren
  have h1 : run_musetalk_inference jp o = (Except.ok outp, [FsOp.rename temp outp]) := by
    unfold run_musetalk_inference
    rw [hreq, hpred]
    simp only [if_neg htemp]
    unfold getItem
    rw [hout, hren]
    simp
  have h2 : process_job_result jp o = JobResult.filePath outp (basename outp) := by
    unfold process_job_result process_job_try
    rw [h1]
  exact ⟨h1, h2, by rw [h2]; rfl⟩

/-- Witness for C5: with the full bundle and a successful backend run,
the temporary `tmp/gradio.mp4` is renamed to `out/final.mp4` and the
payload carries the caller's path and its basename. -/
theorem C5_witness :
    requireKeys jpFull predictArgKeys = Except.ok () ∧
    okOracle.predict = Except.ok (some "tmp/gradio.mp4") ∧
    jpFull.get? "output_file_path" = some "out/final.mp4" ∧
    run_musetalk_inference jpFull okOracle =
      (Except.ok "out/final.mp4", [FsOp.rename "tmp/gradio.mp4" "out/final.mp4"]) ∧
    process_job_result jpFull okOracle =
      JobResult.filePath "out/final.mp4" "final.mp4" := by
  have h := C5_success_relocation jpFull okOracle "tmp/gradio.mp4" "out/final.mp4"
    rfl rfl (by decide) rfl rfl
  exact ⟨rfl, rfl, rfl, h.1, h.2.1⟩

/-- Claim C6: `send_result` never raises back into the orchestrator:
with no channel registered for the handle it is a no-op, and when the
registered channel's send raises, the exception is swallowed; in every
case it returns normally. -/
theorem C6_delivery_never_raises :
    ∀ (conns : List (Nat × Chan)) (jobId : Nat) (d : JobResult),
    (∃ v, ConnectionManager.send_result conns jobId d = Except.ok v) ∧
    (ConnectionManager.findConn conns jobId = none →
      ConnectionManager.send_result conns jobId d = Except.ok []) ∧
    (∀ ws, ConnectionManager.findConn conns jobId = some ws →
      ws.sendFails = true →
      ConnectionManager.send_result conns jobId d = Except.ok []) := by
  intro conns jobId d
  refine ⟨?_, ?_, ?_⟩
  · cases h : ConnectionManager.findConn conns jobId with
    | none =>
      exact ⟨[], by simp [ConnectionManager.send_result, h]⟩
    | some ws =>
      cases hf : ws.sendFails with
      | true =>
        exact ⟨[], by
          simp [ConnectionManager.send_result, ConnectionManager.send_json, h, hf]⟩
      | false =>
        exact ⟨[(ws.cid, ws, d)], by
          simp [ConnectionManager.send_result, ConnectionManager.send_json, h, hf]⟩
  · intro h
    unfold ConnectionManager.send_result
    rw [h]
  · intro ws h hf
    simp [ConnectionManager.send_result, ConnectionManager.send_json, h, hf]

/-- Witness for C6: delivering to a handle with no registered channel
returns normally as a no-op, and a closed channel's failure is
swallowed. -/
theorem C6_witness :
    ConnectionManager.findConn [] 7 = none ∧
    ConnectionManager.send_result [] 7 (JobResult.error "boom") = Except.ok [] ∧
    ConnectionManager.send_result [(7, { cid := 1, sendFails := true })] 7
      (JobResult.error "boom") = Except.ok [] :=
  ⟨rfl, (C6_delivery_never_raises [] 7 (JobResult.error "boom")).2.1 rfl,
    (C6_delivery_never_raises [(7, { cid := 1, sendFails := true })] 7
      (JobResult.error "boom")).2.2 { cid := 1, sendFails := true } rfl rfl⟩

/-- Claim C9: the admission endpoint responds synchronously with
`status=success` and the fresh handle, for every parameter bundle
(even one missing required fields), before the job has run: the
spawned task is still in phase `ready` with no event recorded, and the
admission is a single atomic step of the event loop. -/
theorem C9_admission_synchronous :
    ∀ (s : Sys) (jp : JobParams) (o : BackendOracle),
    (execute_workflow s jp o).1.status = "success" ∧
    (execute_workflow s jp o).1.job_id = s.nextId ∧
    (execute_workflow s jp o).2.task s.nextId = some
      { phase := Phase.ready, params := jp, oracle := o, reachAt := none,
        startAt := none, endAt := none, deliverAt := none } ∧
    Step s (execute_workflow s jp o).2 := by
  intro s jp o
  exact ⟨rfl, rfl, setTask_self _ _ _, Step.submit s jp o⟩

/-- Claim C10: deregistration is keyed only by handle. If a second
channel `w2` is registered under handle `h` (overwriting `w1`,
last-writer-wins) and then `disconnect h` runs — which is what the
first channel's endpoint handler calls when its peer disconnects — the
registry entry removed is the live `w2`, a channel the disconnecting
peer does not own. -/
theorem C10_disconnect_keyed_by_handle :
    ∀ (m : List (Nat × Chan)) (h : Nat) (w1 w2 : Chan), w1 ≠ w2 →
    ConnectionManager.findConn
      (ConnectionManager.connect (ConnectionManager.connect m h w1) h w2) h =
      some w2 ∧
    some w2 ≠ some w1 ∧
    ConnectionManager.findConn
      (ConnectionManager.disconnect
        (ConnectionManager.connect (ConnectionManager.connect m h w1) h w2) h) h =
      none := by
  intro m h w1 w2 hne
  refine ⟨?_, ?_, ?_⟩
  · unfold ConnectionManager.connect ConnectionManager.findConn
    simp
  · intro hc
    exact hne (Option.some_inj.mp hc).symm
  · unfold ConnectionManager.disconnect
    exact findConn_eraseConn _ _

/-- Witness for C10: with an empty registry, register channel 1 then
channel 2 under handle 5; `disconnect 5` (as run by channel 1's
handler) removes channel 2's registration. -/
theorem C10_witness :
    ConnectionManager.findConn
      (ConnectionManager.connect
        (ConnectionManager.connect [] 5 { cid := 1, sendFails := false })
        5 { cid := 2, sendFails := false }) 5 =
      some { cid := 2, sendFails := false } ∧
    ConnectionManager.findConn
      (ConnectionManager.disconnect
        (ConnectionManager.connect
          (ConnectionManager.connect [] 5 { cid := 1, sendFails := false })
          5 { cid := 2, sendFails := false }) 5) 5 = none := by
  have h := C10_disconnect_keyed_by_handle [] 5 { cid := 1, sendFails := false }
    { cid := 2, sendFails := false } (by simp)
  exact ⟨h.1, h.2.2⟩

/-- Claim C1: at most one backend invocation is in flight at any
instant, system-wide — in every reachable state, at most one task is in
phase `running` (its backend call in flight under the lock). -/
theorem C1_single_backend_in_flight :
    ∀ (s : Sys), Reachable s → ∀ (a b : Nat) (tsa tsb : TaskState),
    s.task a = some tsa → s.task b = some tsb →
    tsa.phase = Phase.running → tsb.phase = Phase.running → a = b := by
  intro s hs a b tsa tsb ha hb hpa hpb
  have hI := reachable_inv hs
  have h1 := hI.holder_unique a tsa ha (Or.inr hpa)
  have h2 := hI.holder_unique b tsb hb (Or.inr hpb)
  rw [h1] at h2
  exact Option.some_inj.mp h2

/-- Claim C2: FIFO fairness of the gate — in every reachable state, if
job `a` reached the gate strictly before job `b` and `b`'s backend call
has started, then `a`'s backend call started and finished strictly
before `b`'s started. -/
theorem C2_fifo_gate :
    ∀ (s : Sys), Reachable s → ∀ (a b : Nat) (tsa tsb : TaskState)
    (ra rb kb : Nat),
    s.task a = some tsa → s.task b = some tsb →
    tsa.reachAt = some ra → tsb.reachAt = some rb → ra < rb →
    tsb.startAt = some kb →
    ∃ ka na, tsa.startAt = some ka ∧ tsa.endAt = some na ∧
      ka < na ∧ na < kb := by
  intro s hs a b tsa tsb ra rb kb ha hb hra hrb hlt hkb
  have hI := reachable_inv hs
  obtain ⟨na, hend, hna⟩ := hI.fifo a b tsa tsb ra rb kb ha hb hra hrb hlt hkb
  cases hpa : tsa.phase
  case ready =>
    obtain ⟨_, _, he, _⟩ := ready_ts hI ha hpa
    rw [he] at hend
    cases hend
  case waiting =>
    obtain ⟨_, _, he, _⟩ := waiting_ts hI ha hpa
    rw [he] at hend
    cases hend
  case granted =>
    obtain ⟨_, _, he, _⟩ := granted_ts hI ha hpa
    rw [he] at hend
    cases hend
  case running =>
    obtain ⟨_, he, _⟩ := running_ts hI ha hpa
    rw [he] at hend
    cases hend
  case delivering =>
    obtain ⟨⟨r2, k2, n2, _, hk2, hn2, _, hkn⟩, _⟩ := delivering_ts hI ha hpa
    rw [hn2] at hend
    cases Option.some_inj.mp hend
    exact ⟨k2, na, hk2, hn2, hkn, hna⟩
  case done =>
    obtain ⟨r2, k2, n2, d2, _, hk2, hn2, _, _, hkn, _⟩ := done_ts hI ha hpa
    rw [hn2] at hend
    cases Option.some_inj.mp hend
    exact ⟨k2, na, hk2, hn2, hkn, hna⟩

/-- Claim C3: the gate hold is released before notification delivery is
attempted, for succeeding and failing jobs alike: a task that has built
its result (phase `delivering` or `done`) no longer holds the gate, and
its recorded release time (the end of its critical section) strictly
precedes its delivery-attempt time; moreover the finish transition —
taken on every exit of the `async with` block, exceptional or not —
hands the gate to the next FIFO waiter, or frees it when no waiter
exists, so a failing job never blocks subsequent jobs. -/
theorem C3_release_before_notify :
    (∀ (s : Sys), Reachable s → ∀ (t : Nat) (ts : TaskState),
      s.task t = some ts →
      (ts.phase = Phase.delivering ∨ ts.phase = Phase.done) →
      s.holder ≠ some t ∧
      (∀ d, ts.deliverAt = some d → ∃ n, ts.endAt = some n ∧ n < d)) ∧
    (∀ (s : Sys) (t : Nat) (ts : TaskState) (b : Nat) (rest : List Nat)
      (tsb : TaskState), (finishNextEff s t ts b rest tsb).holder = some b) ∧
    (∀ (s : Sys) (t : Nat) (ts : TaskState),
      (finishNoneEff s t ts).holder = none) := by
  refine ⟨?_, ?_, ?_⟩
  · intro s hs t ts ht hph
    have hI := reachable_inv hs
    constructor
    · intro hh
      obtain ⟨ts2, ht2, hph2⟩ := hI.holder_some t hh
      rw [ht] at ht2
      cases Option.some_inj.mp ht2
      rcases hph with hx | hx <;> rcases hph2 with hy | hy <;>
        (rw [hx] at hy; cases hy)
    · intro d hd
      rcases hph with hx | hx
      · obtain ⟨_, hdel⟩ := delivering_ts hI ht hx
        rw [hdel] at hd
        cases hd
      · obtain ⟨r, k, n, d2, _, _, hend, hdel, _, _, hnd⟩ := done_ts hI ht hx
        rw [hdel] at hd
        cases Option.some_inj.mp hd
        exact ⟨n, hend, hnd⟩
  · intro s t ts b rest tsb
    rfl
  · intro s t ts
    rfl

/-- Claim C7: the handles issued by admissions are pairwise distinct in
every reachable state: a handle, once issued, is never issued again. -/
theorem C7_handles_unique : ∀ (s : Sys), Reachable s → s.issued.Nodup := by
  intro s hs
  exact (reachable_inv hs).issued_nodup

/-- Claim C8: exactly one Job Result per job, received by the
registered live channel. In every reachable state: at most one delivery
attempt was made per handle; every delivered payload is the result
computed from that job's own parameters and backend outcome (Success if
the backend and relocation succeeded, Failure otherwise) and its task
is terminal; every terminal task has exactly one delivery attempt
logged; and at the delivery step of any job whose handle has a
registered, still-live channel, `send_result` hands that channel
exactly the one message carrying the job's actual outcome, the logged
attempt records reception, and no earlier attempt exists for that
handle — so the channel receives exactly one message for the job. -/
theorem C8_exactly_once :
    ∀ (s : Sys), Reachable s →
    (s.delivered.map (fun e => e.1)).Nodup ∧
    (∀ e ∈ s.delivered, ∃ ts, s.task e.1 = some ts ∧
      ts.phase = Phase.done ∧
      e.2.1 = process_job_result ts.params ts.oracle) ∧
    (∀ t ts, s.task t = some ts → ts.phase = Phase.done →
      t ∈ s.delivered.map (fun e => e.1)) ∧
    (∀ t ts ws, s.task t = some ts → ts.phase = Phase.delivering →
      ConnectionManager.findConn s.conns t = some ws → ws.sendFails = false →
      ConnectionManager.send_result s.conns t
        (process_job_result ts.params ts.oracle) =
        Except.ok [(ws.cid, ws, process_job_result ts.params ts.oracle)] ∧
      (deliverEff s t ts).delivered =
        s.delivered ++ [(t, process_job_result ts.params ts.oracle, true)] ∧
      t ∉ s.delivered.map (fun e => e.1)) := by
  intro s hs
  have hI := reachable_inv hs
  refine ⟨hI.delivered_nodup, hI.delivered_done, hI.done_delivered, ?_⟩
  intro t ts ws ht hph hfind hfail
  have hpay : ConnectionManager.send_result s.conns t
      (process_job_result ts.params ts.oracle) =
      Except.ok [(ws.cid, ws, process_job_result ts.params ts.oracle)] := by
    simp [ConnectionManager.send_result, ConnectionManager.send_json, hfind, hfail]
  refine ⟨hpay, ?_, ?_⟩
  · show s.delivered ++ [(t, process_job_result ts.params ts.oracle,
        sendDelivered (ConnectionManager.send_result s.conns t
          (process_job_result ts.params ts.oracle)))] =
      s.delivered ++ [(t, process_job_result ts.params ts.oracle, true)]
    rw [hpay]
    rfl
  · intro hmem
    rw [List.mem_map] at hmem
    obtain ⟨e, hmem2, hfst⟩ := hmem
    obtain ⟨ts3, hts3, hphd, _⟩ := hI.delivered_done e hmem2
    rw [hfst, ht] at hts3
    cases Option.some_inj.mp hts3
    rw [hph] at hphd
    cases hphd

/-! ## A concrete reachable execution (used by the witnesses) -/

theorem demo1_reachable : Reachable demo1 :=
  Reachable.step Reachable.init (Step.submit initSys jpFull okOracle)

theorem demo2_reachable : Reachable demo2 :=
  Reachable.step demo1_reachable (Step.submit demo1 jpFull boomOracle)

theorem demo3_reachable : Reachable demo3 :=
  Reachable.step demo2_reachable
    (Step.acquireNow demo2 0 (freshTask jpFull okOracle) rfl rfl rfl)

theorem demo4_reachable : Reachable demo4 :=
  Reachable.step demo3_reachable
    (Step.enqueue demo3 1 (freshTask jpFull boomOracle) 0 rfl rfl rfl)

theorem demo5_reachable : Reachable demo5 :=
  Reachable.step demo4_reachable
    (Step.startBackend demo4 0
      { freshTask jpFull okOracle with
          phase := Phase.granted
          reachAt := some 2 }
      rfl rfl)

theorem demo6_reachable : Reachable demo6 :=
  Reachable.step demo5_reachable
    (Step.finishNext demo5 0
      { freshTask jpFull okOracle with
          phase := Phase.running
          reachAt := some 2
          startAt := some 4 }
      1 []
      { freshTask jpFull boomOracle with
          phase := Phase.waiting
          reachAt := some 3 }
      rfl rfl rfl rfl)

theorem demo7_reachable : Reachable demo7 :=
  Reachable.step demo6_reachable
    (Step.startBackend demo6 1
      { freshTask jpFull boomOracle with
          phase := Phase.granted
          reachAt := some 3 }
      rfl rfl)

theorem demo8_reachable : Reachable demo8 :=
  Reachable.step demo7_reachable
    (Step.deliver demo7 0
      { freshTask jpFull okOracle with
          phase := Phase.delivering
          reachAt := some 2
          startAt := some 4
          endAt := some 5 }
      rfl rfl)

/-- Witness for C1: in the reachable state `demo5`, job 0's backend
call is in flight; instantiating both quantifiers at job 0 discharges
every hypothesis. -/
theorem C1_witness :
    Reachable demo5 ∧
    demo5.task 0 = some { freshTask jpFull okOracle with
      phase := Phase.running, reachAt := some 2, startAt := some 4 } ∧
    (0 : Nat) = 0 :=
  ⟨demo5_reachable, rfl,
    C1_single_backend_in_flight demo5 demo5_reachable 0 0
      { freshTask jpFull okOracle with
          phase := Phase.running
          reachAt := some 2
          startAt := some 4 }
      { freshTask jpFull okOracle with
          phase := Phase.running
          reachAt := some 2
          startAt := some 4 }
      rfl rfl rfl rfl⟩

/-- Witness for C2: in `demo7`, job 0 reached the gate at time 2, job 1
at time 3, and job 1's backend call started at time 6; the theorem
yields job 0's backend interval, which lies strictly before time 6. -/
theorem C2_witness :
    ∃ ka na,
      ({ freshTask jpFull okOracle with
    phase := Phase.delivering
    reachAt := some 2
    startAt := some 4
    endAt := some 5 } :
          TaskState).startAt = some ka ∧
      ({ freshTask jpFull okOracle with
    phase := Phase.delivering
    reachAt := some 2
    startAt := some 4
    endAt := some 5 } :
          TaskState).endAt = some na ∧
      ka < na ∧ na < 6 :=
  C2_fifo_gate demo7 demo7_reachable 0 1
    { freshTask jpFull okOracle with
        phase := Phase.delivering
        reachAt := some 2
        startAt := some 4
        endAt := some 5 }
    { freshTask jpFull boomOracle with
        phase := Phase.running
        reachAt := some 3
        startAt := some 6 }
    2 3 6 rfl rfl rfl rfl (by decide) rfl

/-- Witness for C3: in `demo8`, job 0 has delivered (phase `done`): it
does not hold the gate, and its release time 5 precedes its delivery
time 7. -/
theorem C3_witness :
    demo8.holder ≠ some 0 ∧
    (∃ n, ({ freshTask jpFull okOracle with
    phase := Phase.done
    reachAt := some 2
    startAt := some 4
    endAt := some 5
    deliverAt := some 7 } : TaskState).endAt = some n ∧ n < 7) := by
  have h := C3_release_before_notify.1 demo8 demo8_reachable 0
    { freshTask jpFull okOracle with
        phase := Phase.done
        reachAt := some 2
        startAt := some 4
        endAt := some 5
        deliverAt := some 7 }
    rfl (Or.inr rfl)
  exact ⟨h.1, h.2 7 rfl⟩

/-- Witness for C7: after the two admissions of the demo run the
issued handles are 0 and 1, pairwise distinct. -/
theorem C7_witness : demo2.issued = [0, 1] ∧ demo2.issued.Nodup :=
  ⟨rfl, C7_handles_unique demo2 demo2_reachable⟩

theorem demo7c_reachable : Reachable demo7c :=
  Reachable.step demo7_reachable
    (Step.wsConnect demo7 0 { cid := 9, sendFails := false })

/-- Witness for C8: in `demo8c` a live channel (cid 9) is registered
for job 0's handle at delivery time; `send_result` hands it exactly the
one success payload computed from job 0's own parameters and backend
outcome, and the single logged attempt records reception. The `demo8`
conjuncts show the no-channel variant of the same delivery with the
attempt log still unique. -/
theorem C8_witness :
    demo8.delivered =
      [(0, JobResult.filePath "out/final.mp4" "final.mp4", false)] ∧
    (demo8.delivered.map (fun e => e.1)).Nodup ∧
    ConnectionManager.findConn demo7c.conns 0 =
      some { cid := 9, sendFails := false } ∧
    ConnectionManager.send_result demo7c.conns 0
      (process_job_result jpFull okOracle) =
      Except.ok [(9, { cid := 9, sendFails := false },
        JobResult.filePath "out/final.mp4" "final.mp4")] ∧
    demo8c.delivered =
      [(0, JobResult.filePath "out/final.mp4" "final.mp4", true)] := by
  have h2 := (C8_exactly_once demo7c demo7c_reachable).2.2.2 0
    { freshTask jpFull okOracle with
      phase := Phase.delivering
      reachAt := some 2
      startAt := some 4
      endAt := some 5 }
    { cid := 9, sendFails := false } rfl rfl rfl rfl
  exact ⟨rfl, (C8_exactly_once demo8 demo8_reachable).1, rfl, h2.1, h2.2.1⟩
